import Mathlib

set_option maxHeartbeats 1000000

/-!
Verification development for the VSRVC video codec repository.

The development shallow-embeds the GOP (group-of-pictures) orchestration of
`loader/model_loader.py`, the two-frame-window encoders of `models/vsrvc.py`,
and the metric entry points of `metrics.py`.

Tensor values produced by the learned transforms and by the entropy coder are
modelled as a free term algebra `T`: each opaque operation of the code is a
constructor, so two terms are equal exactly when they arise as the same
composition of operations applied to the same inputs.  This models bit-for-bit
equality of the corresponding runtime values, which is the notion of equality
the drift-free specification uses.
-/

namespace VSRVC

/-- Python runtime errors raised by the modelled inference paths. -/
inductive PyErr : Type where
  | zeroDiv      -- ZeroDivisionError from `i % keyframe_interval` with interval 0
  | index        -- IndexError
  | typeNone     -- TypeError from operating on a missing (None) reference
  | assert       -- AssertionError
  | stackEmpty   -- RuntimeError: torch.stack on an empty list
  | notImplAgg   -- NotImplementedError with the aggregation-strategy message
  | notImplRank  -- NotImplementedError with the tensor-rank message
  deriving DecidableEq, Repr

/-- Symbolic tensors and bitstream records: a free algebra over the opaque
learned transforms and entropy-coder operations used by the repository.
Record-producing operations (`iEncRec`, `resRec`, `motRec`, `sentinelRec`)
build the serialized (prior string, hyperprior string, shape) triples as
opaque values determined by the tensor they encode. -/
inductive T : Type where
  | atom (n : Nat)            -- an arbitrary input tensor (for instance a raw frame)
  | noneT                     -- Python None
  | extractFeats (x : T)      -- encoder feature extraction (vsrvc.py 21-22, 63-64)
  | iEncRec (x : T)           -- content record of the embedded iframe compress_one
  | resRec (x : T)            -- residual record: HyperpriorCompressAI.compress(x)
  | motRec (x : T)            -- motion record: motion compressor compress(x)
  | sentinelRec               -- the empty sentinel record ('', '', 0)
  | iDec (r : T)              -- iframe decompress_one of a content record
  | cDec (r : T)              -- content compressor decompress of a record
  | mDec (r : T)              -- motion compressor decompress of a record
  | reconHead (x : T)         -- ReconstructionHead
  | add (a b : T)             -- tensor addition
  | sub (a b : T)             -- tensor subtraction
  | motionEst (a b : T)       -- MotionEstimator(prev_feat, curr_feat)
  | motionComp (a b : T)      -- MotionCompensator / align_features(feat, offsets)
  | auxKey (f : T)            -- auxiliary task output at a keyframe
  | auxNA (m : Nat) (p c : T) -- auxiliary task output, no-adaptation predicted frame
  | auxA (m : Nat) (p c r : T) -- auxiliary task output, adaptive predicted frame
  | trainRT (x : T)           -- train_compression_decompression reconstruction
  | bitsP (x : T)             -- prior bit-cost estimate
  | bitsHP (x : T)            -- hyperprior bit-cost estimate
  | unsq (x : T)              -- torch unsqueeze(0)
  | psnrOf (a b : T)          -- torchmetrics peak_signal_noise_ratio
  | ssimOf (a b : T)          -- torchmetrics structural_similarity_index_measure
  | meanT (x : T)             -- torch.mean
  | sumT (x : T)              -- torch.sum
  | stackT (x : T)            -- torch.stack
  | consT (a b : T)           -- a Python list cell, for stacked value lists
  | nilT                      -- the empty Python list
  deriving DecidableEq, Repr

/-- Per-frame output of a predictive compress loop: the "vc" task record list
for this frame and the auxiliary tasks' output (collapsed to one symbolic
value, since the task set beyond "vc" is configuration). -/
structure FrameOut where
  entry : List T
  auxv : T
  deriving DecidableEq, Repr

/-- Per-iteration record of the adaptive compress loops.  Besides the emitted
"vc" record list and auxiliary output it records the loop's state after the
iteration: `recon` is the value of the `prev_recon` variable, and `ref` is the
"vc" feature reference `ss_rep[0]` the encoder consumed this iteration
(`none` at keyframes, which use no reference). -/
structure Step where
  entry : List T
  auxv : T
  recon : T
  ref : Option T
  deriving DecidableEq, Repr

/-- Output of a predictive compress call: the per-frame "vc" record lists and
the per-frame auxiliary outputs (the `out` dict of model_loader.py). -/
structure COut where
  vc : List (List T)
  aux : List T
  deriving DecidableEq, Repr

/-- Content record list produced by the embedded IFrameModel.compress_one for
one input slice (model_loader.py 72-83).  The encoder plus the "vc" decoder's
compress form one opaque composite, so the record is a single opaque function
of the slice; the container is a one-record list, matching the indexing
`results["vc"][0]` and the sentinel append performed by the predictive
orchestrators (the concrete decoder modules are resolved from configuration). -/
def iframeVc (f : T) : List T := [T.iEncRec f]

/-- IFrameModel.decompress_one (model_loader.py 85-86) on one content record. -/
def iframeDec (r : T) : T := T.iDec r

/-- Previous raw frame visible at loop index `j` when the loop was entered
with previous frame `pf` and remaining frames `fs`: Python's
`video[:, i - 1:i + 1]` addressing. -/
def prevFrameAt (pf : Option T) (fs : List T) : Nat → Option T
  | 0 => pf
  | j + 1 => fs[j]?

/-- Previous reconstruction visible at loop index `j` of an adaptive compress
loop entered with `prev_recon = pr` and producing `steps`. -/
def prevReconAt (pr : Option T) (steps : List Step) : Nat → Option T
  | 0 => pr
  | j + 1 => (steps[j]?).map (·.recon)

theorem prevFrameAt_cons (f : T) (rest : List T) (j : Nat) :
    prevFrameAt (some f) rest j = (f :: rest)[j]? := by
  cases j with
  | zero => simp [prevFrameAt]
  | succ j => simp [prevFrameAt]

theorem prevReconAt_cons (st : Step) (tl : List Step) (j : Nat) :
    prevReconAt (some st.recon) tl j = ((st :: tl)[j]?).map (·.recon) := by
  cases j with
  | zero => simp [prevReconAt]
  | succ j => simp [prevReconAt]

namespace PFrameModel

/-- Keyframe iteration of both PFrameModel compress loops (model_loader.py
117-123 and 142-147): delegate the slice to the embedded iframe model.  In the
adaptive loop, `prev_recon` becomes the iframe decode of the just-produced
content record (line 120). -/
def keyStep (f : T) : Step :=
  { entry := iframeVc f, auxv := T.auxKey f
    recon := iframeDec (T.iEncRec f), ref := none }

/-- Keyframe iteration viewed as a plain frame output (no state recorded). -/
def keyOut (f : T) : FrameOut :=
  { entry := iframeVc f, auxv := T.auxKey f }

/-- Predicted-frame iteration of PFrameModel.compress_with_adaptation
(model_loader.py 124-136).  Modelled from the spec: the two-argument
`encoder.compress(inp, prev_recon)` is absent from src; per the spec it drives
the encoder with the decoder-side reconstruction, so the "vc" representation
is (extract_feats prev_recon, extract_feats current frame); LibMTL's external
`_prepare_rep` is modelled as pass-through, as the drift-free contract
requires.  The emitted record is VCResidualDecoder.compress of that pair
(vsrvc.py 103-107: residual = current minus reference) and the new
`prev_recon` is VCResidualDecoder.decompress(ss_rep[0], record)
(vsrvc.py 109-113, invoked at model_loader.py 132-133). -/
def adaptPredStep (prv p f : T) : Step :=
  let rf := T.extractFeats prv
  let cf := T.extractFeats f
  let r0 := T.resRec (T.sub cf rf)
  { entry := [r0], auxv := T.auxA 0 p f prv
    recon := T.reconHead (T.add (T.cDec r0) rf), ref := some rf }

/-- Predicted-frame iteration of PFrameModel.compress_no_adaptation
(model_loader.py 148-157).  Modelled from the spec: the one-argument
`encoder.compress(inp)` is absent from src; it mirrors
VSRVCResidualEncoder.forward (vsrvc.py 66-71), driving the "vc"
representation purely from the raw pair's features. -/
def naPredStep (p f : T) : FrameOut :=
  let pfe := T.extractFeats p
  let cf := T.extractFeats f
  { entry := [T.resRec (T.sub cf pfe)], auxv := T.auxNA 0 p f }

/-- Loop of PFrameModel.compress_with_adaptation (model_loader.py 113-137)
with the frame index, the previous raw frame, and `prev_recon` as explicit
state.  Evaluating `i % keyframe_interval` with interval 0 is Python's
ZeroDivisionError; a predicted frame with a missing state value would be
Python's TypeError (never reached from index 0). -/
def adaptGo (ki : Nat) : Nat → Option T → Option T → List T → Except PyErr (List Step)
  | _, _, _, [] => .ok []
  | i, pf, pr, f :: rest =>
    if ki = 0 then .error .zeroDiv
    else
      let step? : Except PyErr Step :=
        if i % ki = 0 then .ok (keyStep f)
        else
          match pr, pf with
          | some prv, some p => .ok (adaptPredStep prv p f)
          | _, _ => .error .typeNone
      match step? with
      | .error e => .error e
      | .ok st =>
        match adaptGo ki (i + 1) (some f) (some st.recon) rest with
        | .ok tl => .ok (st :: tl)
        | .error e => .error e

/-- Loop of PFrameModel.compress_no_adaptation (model_loader.py 139-158). -/
def naGo (ki : Nat) : Nat → Option T → List T → Except PyErr (List FrameOut)
  | _, _, [] => .ok []
  | i, pf, f :: rest =>
    if ki = 0 then .error .zeroDiv
    else
      let step? : Except PyErr FrameOut :=
        if i % ki = 0 then .ok (keyOut f)
        else
          match pf with
          | some p => .ok (naPredStep p f)
          | none => .error .typeNone
      match step? with
      | .error e => .error e
      | .ok st =>
        match naGo ki (i + 1) (some f) rest with
        | .ok tl => .ok (st :: tl)
        | .error e => .error e

/-- PFrameModel.compress_with_adaptation (model_loader.py 113-137). -/
def compress_with_adaptation (ki : Nat) (frames : List T) : Except PyErr COut :=
  (adaptGo ki 0 none none frames).map fun l => ⟨l.map (·.entry), l.map (·.auxv)⟩

/-- PFrameModel.compress_no_adaptation (model_loader.py 139-158). -/
def compress_no_adaptation (ki : Nat) (frames : List T) : Except PyErr COut :=
  (naGo ki 0 none frames).map fun l => ⟨l.map (·.entry), l.map (·.auxv)⟩

/-- PFrameModel.compress (model_loader.py 160-163). -/
def compress (adaptation : Bool) (ki : Nat) (frames : List T) : Except PyErr COut :=
  if adaptation then compress_with_adaptation ki frames
  else compress_no_adaptation ki frames

/-- Per-frame "vc" feature reference `ss_rep[0]` consumed by the adaptive
encoder; `none` at keyframes. -/
def vcRefs (ki : Nat) (frames : List T) : Except PyErr (List (Option T)) :=
  (adaptGo ki 0 none none frames).map (List.map (·.ref))

/-- Loop of PFrameModel.decompress (model_loader.py 165-176): a keyframe entry
decodes via the embedded iframe model from `inp[0]`; a predicted entry decodes
its residual record against `prev_feat` (VCResidualDecoder.decompress,
vsrvc.py 109-113); every iteration re-extracts `prev_feat` from the new
reconstruction (line 174). -/
def decGo (ki : Nat) : Nat → Option T → List (List T) → Except PyErr (List T)
  | _, _, [] => .ok []
  | i, pfeat, e :: rest =>
    if ki = 0 then .error .zeroDiv
    else
      let recon? : Except PyErr T :=
        if i % ki = 0 then
          match e with
          | r :: _ => .ok (iframeDec r)
          | [] => .error .index
        else
          match e with
          | [] => .error .index
          | r :: _ =>
            match pfeat with
            | some pv => .ok (T.reconHead (T.add (T.cDec r) pv))
            | none => .error .typeNone
      match recon? with
      | .error err => .error err
      | .ok recon =>
        match decGo ki (i + 1) (some (T.extractFeats recon)) rest with
        | .ok tl => .ok (recon :: tl)
        | .error err => .error err

/-- PFrameModel.decompress (model_loader.py 165-176). -/
def decompress (ki : Nat) (inputs : List (List T)) : Except PyErr (List T) :=
  decGo ki 0 none inputs

end PFrameModel

/-- Discriminates a "vc" entry produced by the keyframe path (its first record
is an iframe content record) from one produced by the predicted path. -/
def vcEntryIsKey : List T → Bool
  | T.iEncRec _ :: _ => true
  | _ => false

/-- Discriminates a reconstruction produced by the keyframe decode path from
one produced by the predicted decode path. -/
def reconIsKey : T → Bool
  | T.iDec _ => true
  | _ => false

namespace PFrameModel

theorem naGo_char (ki : Nat) (hki : 0 < ki) :
    ∀ (rest : List T) (i : Nat) (pf : Option T),
      (i % ki = 0 ∨ ∃ q, pf = some q) →
      ∃ l, naGo ki i pf rest = .ok l ∧ l.length = rest.length ∧
        ∀ j f, rest[j]? = some f →
          if (i + j) % ki = 0 then l[j]? = some (keyOut f)
          else ∃ p, prevFrameAt pf rest j = some p ∧ l[j]? = some (naPredStep p f) := by
  intro rest
  induction rest with
  | nil =>
    intro i pf _
    exact ⟨[], by simp [naGo], by simp, by intro j f h; simp at h⟩
  | cons f rest ih =>
    intro i pf hpre
    have hne : ki ≠ 0 := Nat.pos_iff_ne_zero.mp hki
    obtain ⟨tl, htl, hlen, hchar⟩ := ih (i + 1) (some f) (Or.inr ⟨f, rfl⟩)
    by_cases hk : i % ki = 0
    · refine ⟨keyOut f :: tl, ?_, by simp [hlen], ?_⟩
      · simp [naGo, hne, hk, htl]
      · intro j g hj
        cases j with
        | zero =>
          simp only [List.getElem?_cons_zero, Option.some_inj] at hj
          subst hj
          simp [hk]
        | succ j =>
          simp only [List.getElem?_cons_succ] at hj
          have harith : i + (j + 1) = (i + 1) + j := by omega
          have := hchar j g hj
          rw [harith]
          by_cases hk2 : ((i + 1) + j) % ki = 0

          · simpa [hk2] using this
          · simp only [hk2, if_false] at this ⊢
            obtain ⟨p, hp, hl⟩ := this
            refine ⟨p, ?_, by simpa using hl⟩
            calc prevFrameAt pf (f :: rest) (j + 1) = (f :: rest)[j]? := rfl
              _ = prevFrameAt (some f) rest j := (prevFrameAt_cons f rest j).symm
              _ = some p := hp
    · obtain ⟨q, rfl⟩ := hpre.resolve_left hk
      refine ⟨naPredStep q f :: tl, ?_, by simp [hlen], ?_⟩
      · simp [naGo, hne, hk, htl]
      · intro j g hj
        cases j with
        | zero =>
          simp only [List.getElem?_cons_zero, Option.some_inj] at hj
          subst hj
          simp only [Nat.add_zero, hk, if_false]
          exact ⟨q, rfl, by simp⟩
        | succ j =>
          simp only [List.getElem?_cons_succ] at hj
          have harith : i + (j + 1) = (i + 1) + j := by omega
          have := hchar j g hj
          rw [harith]
          by_cases hk2 : ((i + 1) + j) % ki = 0
          · simpa [hk2] using this
          · simp only [hk2, if_false] at this ⊢
            obtain ⟨p, hp, hl⟩ := this
            refine ⟨p, ?_, by simpa using hl⟩
            calc prevFrameAt (some q) (f :: rest) (j + 1) = (f :: rest)[j]? := rfl
              _ = prevFrameAt (some f) rest j := (prevFrameAt_cons f rest j).symm
              _ = some p := hp

theorem adaptGo_char (ki : Nat) (hki : 0 < ki) :
    ∀ (rest : List T) (i : Nat) (pf pr : Option T),
      (i % ki = 0 ∨ ((∃ q, pf = some q) ∧ ∃ s, pr = some s)) →
      ∃ steps, adaptGo ki i pf pr rest = .ok steps ∧ steps.length = rest.length ∧
        ∀ j f, rest[j]? = some f →
          if (i + j) % ki = 0 then steps[j]? = some (keyStep f)
          else ∃ p r, prevFrameAt pf rest j = some p ∧ prevReconAt pr steps j = some r ∧
            steps[j]? = some (adaptPredStep r p f) := by
  intro rest
  induction rest with
  | nil =>
    intro i pf pr _
    exact ⟨[], by simp [adaptGo], by simp, by intro j f h; simp at h⟩
  | cons f rest ih =>
    intro i pf pr hpre
    have hne : ki ≠ 0 := Nat.pos_iff_ne_zero.mp hki
    by_cases hk : i % ki = 0
    · obtain ⟨tl, htl, hlen, hchar⟩ :=
        ih (i + 1) (some f) (some (keyStep f).recon) (Or.inr ⟨⟨f, rfl⟩, _, rfl⟩)
      refine ⟨keyStep f :: tl, ?_, by simp [hlen], ?_⟩
      · simp [adaptGo, hne, hk, htl]
      · intro j g hj
        cases j with
        | zero =>
          simp only [List.getElem?_cons_zero, Option.some_inj] at hj
          subst hj
          simp [hk]
        | succ j =>
          simp only [List.getElem?_cons_succ] at hj
          have harith : i + (j + 1) = (i + 1) + j := by omega
          have := hchar j g hj
          rw [harith]
          by_cases hk2 : ((i + 1) + j) % ki = 0
          · simpa [hk2] using this
          · simp only [hk2, if_false] at this ⊢
            obtain ⟨p, r, hp, hr, hl⟩ := this
            refine ⟨p, r, ?_, ?_, by simpa using hl⟩
            · calc prevFrameAt pf (f :: rest) (j + 1) = (f :: rest)[j]? := rfl
                _ = prevFrameAt (some f) rest j := (prevFrameAt_cons f rest j).symm
                _ = some p := hp
            · calc prevReconAt pr (keyStep f :: tl) (j + 1)
                  = ((keyStep f :: tl)[j]?).map (·.recon) := rfl
                _ = prevReconAt (some (keyStep f).recon) tl j :=
                    (prevReconAt_cons (keyStep f) tl j).symm
                _ = some r := hr
    · obtain ⟨⟨q, rfl⟩, s, rfl⟩ := hpre.resolve_left hk
      obtain ⟨tl, htl, hlen, hchar⟩ :=
        ih (i + 1) (some f) (some (adaptPredStep s q f).recon) (Or.inr ⟨⟨f, rfl⟩, _, rfl⟩)
      refine ⟨adaptPredStep s q f :: tl, ?_, by simp [hlen], ?_⟩
      · simp [adaptGo, hne, hk, htl]
      · intro j g hj
        cases j with
        | zero =>
          simp only [List.getElem?_cons_zero, Option.some_inj] at hj
          subst hj
          simp only [Nat.add_zero, hk, if_false]
          exact ⟨q, s, rfl, rfl, by simp⟩
        | succ j =>
          simp only [List.getElem?_cons_succ] at hj
          have harith : i + (j + 1) = (i + 1) + j := by omega
          have := hchar j g hj
          rw [harith]
          by_cases hk2 : ((i + 1) + j) % ki = 0
          · simpa [hk2] using this
          · simp only [hk2, if_false] at this ⊢
            obtain ⟨p, r, hp, hr, hl⟩ := this
            refine ⟨p, r, ?_, ?_, by simpa using hl⟩
            · calc prevFrameAt (some q) (f :: rest) (j + 1) = (f :: rest)[j]? := rfl
                _ = prevFrameAt (some f) rest j := (prevFrameAt_cons f rest j).symm
                _ = some p := hp
            · calc prevReconAt (some s) (adaptPredStep s q f :: tl) (j + 1)
                  = ((adaptPredStep s q f :: tl)[j]?).map (·.recon) := rfl
                _ = prevReconAt (some (adaptPredStep s q f).recon) tl j :=
                    (prevReconAt_cons (adaptPredStep s q f) tl j).symm
                _ = some r := hr

theorem adapt_sim (ki : Nat) :
    ∀ (rest : List T) (i : Nat) (pf pr : Option T) (steps : List Step),
      adaptGo ki i pf pr rest = .ok steps →
      decGo ki i (pr.map T.extractFeats) (steps.map (·.entry)) = .ok (steps.map (·.recon)) := by
  intro rest
  induction rest with
  | nil =>
    intro i pf pr steps h
    simp only [adaptGo, Except.ok.injEq] at h
    subst h
    simp [decGo]
  | cons f rest ih =>
    intro i pf pr steps h
    simp only [adaptGo] at h
    by_cases hz : ki = 0
    · simp [hz] at h
    · simp only [hz, if_false] at h
      by_cases hk : i % ki = 0
      · simp only [hk, if_true] at h
        rcases htl : adaptGo ki (i + 1) (some f) (some (keyStep f).recon) rest with e | tl
        · rw [htl] at h; exact absurd h (by simp)
        · rw [htl] at h
          simp only [Except.ok.injEq] at h
          subst h
          have ihr := ih (i + 1) (some f) (some (keyStep f).recon) tl htl
          simp only [Option.map_some', keyStep, iframeVc] at ihr ⊢
          simp only [List.map_cons, decGo, hz, if_false, hk, if_true]
          rw [ihr]
      · simp only [hk, if_false] at h
        rcases pr with _ | prv
        · simp at h
        · rcases pf with _ | p
          · simp at h
          · simp only at h
            rcases htl : adaptGo ki (i + 1) (some f) (some (adaptPredStep prv p f).recon) rest
              with e | tl
            · rw [htl] at h; exact absurd h (by simp)
            · rw [htl] at h
              simp only [Except.ok.injEq] at h
              subst h
              have ihr := ih (i + 1) (some f) (some (adaptPredStep prv p f).recon) tl htl
              simp only [Option.map_some', adaptPredStep] at ihr ⊢
              simp only [List.map_cons, decGo, hz, if_false, hk, if_true]
              rw [ihr]

theorem decGo_char (ki : Nat) (hki : 0 < ki) :
    ∀ (entries : List (List T)) (i : Nat) (pfeat : Option T),
      (i % ki = 0 ∨ ∃ q, pfeat = some q) →
      (∀ (j : Nat) (e : List T), entries[j]? = some e → e ≠ []) →
      ∃ recons, decGo ki i pfeat entries = .ok recons ∧
        recons.length = entries.length ∧
        ∀ j r, recons[j]? = some r → (reconIsKey r = true ↔ (i + j) % ki = 0) := by
  intro entries
  induction entries with
  | nil =>
    intro i pfeat _ _
    exact ⟨[], by simp [decGo], by simp, by intro j r h; simp at h⟩
  | cons e rest ih =>
    intro i pfeat hpre hne
    have hz : ki ≠ 0 := Nat.pos_iff_ne_zero.mp hki
    obtain ⟨r0, e', rfl⟩ : ∃ r0 e', e = r0 :: e' := by
      rcases e with _ | ⟨r0, e'⟩
      · exact absurd rfl (hne 0 [] (by simp))
      · exact ⟨r0, e', rfl⟩
    have hne' : ∀ (j : Nat) (x : List T), rest[j]? = some x → x ≠ [] := fun j x hx =>
      hne (j + 1) x (by simpa using hx)
    by_cases hk : i % ki = 0
    · obtain ⟨tl, htl, hlen, hchar⟩ :=
        ih (i + 1) (some (T.extractFeats (iframeDec r0))) (Or.inr ⟨_, rfl⟩) hne'
      refine ⟨iframeDec r0 :: tl, ?_, by simp [hlen], ?_⟩
      · simp [decGo, hz, hk, htl]
      · intro j r hj
        cases j with
        | zero =>
          simp only [List.getElem?_cons_zero, Option.some_inj] at hj
          subst hj
          simp [reconIsKey, iframeDec, hk]
        | succ j =>
          simp only [List.getElem?_cons_succ] at hj
          have harith : i + (j + 1) = (i + 1) + j := by omega
          rw [harith]
          exact hchar j r hj
    · obtain ⟨q, rfl⟩ := hpre.resolve_left hk
      obtain ⟨tl, htl, hlen, hchar⟩ :=
        ih (i + 1) (some (T.extractFeats (T.reconHead (T.add (T.cDec r0) q))))
          (Or.inr ⟨_, rfl⟩) hne'
      refine ⟨T.reconHead (T.add (T.cDec r0) q) :: tl, ?_, by simp [hlen], ?_⟩
      · simp [decGo, hz, hk, htl]
      · intro j r hj
        cases j with
        | zero =>
          simp only [List.getElem?_cons_zero, Option.some_inj] at hj
          subst hj
          simp [reconIsKey, hk]
        | succ j =>
          simp only [List.getElem?_cons_succ] at hj
          have harith : i + (j + 1) = (i + 1) + j := by omega
          rw [harith]
          exact hchar j r hj

end PFrameModel

namespace PFrameModelWithMotion

/-- Keyframe iteration of both PFrameModelWithMotion compress loops
(model_loader.py 191-197 and 214-221): delegate to the embedded iframe model
and append the empty sentinel record to the "vc" record list so the per-frame
arity stays uniform; in the adaptive loop `prev_recon` becomes the iframe
decode of the content record (line 217). -/
def keyStep (f : T) : Step :=
  { entry := [T.iEncRec f, T.sentinelRec], auxv := T.auxKey f
    recon := iframeDec (T.iEncRec f), ref := none }

/-- Keyframe iteration viewed as a plain frame output. -/
def keyOut (f : T) : FrameOut :=
  { entry := [T.iEncRec f, T.sentinelRec], auxv := T.auxKey f }

/-- Predicted-frame iteration of PFrameModelWithMotion.compress_with_adaptation
(model_loader.py 222-234).  Modelled from the spec:
`encoder.compress_with_prev_recon(prev_recon, inp)` and the "vc" decoder's
compress are absent from src; per the spec and the training-time
VSRVCMotionResidualEncoder.forward (vsrvc.py 24-32) the encoder derives its
reference feature from the previous reconstruction, estimates and entropy-codes
the motion offsets, aligns the reference by the decoded offsets, and the "vc"
record list is (content record of the residual against the aligned reference,
motion record); the new `prev_recon` is the "vc" decoder's
decompress(ss_rep[0], content record), which adds the decoded residual to the
aligned reference and applies the reconstruction head (model_loader.py
230-231). -/
def adaptPredStep (prv p f : T) : Step :=
  let rf := T.extractFeats prv
  let cf := T.extractFeats f
  let mr := T.motRec (T.motionEst rf cf)
  let aligned := T.motionComp rf (T.mDec mr)
  let r0 := T.resRec (T.sub cf aligned)
  { entry := [r0, mr], auxv := T.auxA 1 p f prv
    recon := T.reconHead (T.add (T.cDec r0) aligned), ref := some rf }

/-- Predicted-frame iteration of PFrameModelWithMotion.compress_no_adaptation
(model_loader.py 198-207).  Modelled from the spec: the one-argument
`encoder.compress(inp)` is absent from src; it mirrors
VSRVCMotionResidualEncoder.forward (vsrvc.py 24-32), estimating motion and
residual purely from the raw frame pair. -/
def naPredStep (p f : T) : FrameOut :=
  let pfe := T.extractFeats p
  let cf := T.extractFeats f
  let mr := T.motRec (T.motionEst pfe cf)
  let aligned := T.motionComp pfe (T.mDec mr)
  { entry := [T.resRec (T.sub cf aligned), mr], auxv := T.auxNA 1 p f }

/-- Loop of PFrameModelWithMotion.compress_with_adaptation (model_loader.py
210-235), with the frame index, previous raw frame, and `prev_recon` as
explicit state. -/
def adaptGo (ki : Nat) : Nat → Option T → Option T → List T → Except PyErr (List Step)
  | _, _, _, [] => .ok []
  | i, pf, pr, f :: rest =>
    if ki = 0 then .error .zeroDiv
    else
      let step? : Except PyErr Step :=
        if i % ki = 0 then .ok (keyStep f)
        else
          match pr, pf with
          | some prv, some p => .ok (adaptPredStep prv p f)
          | _, _ => .error .typeNone
      match step? with
      | .error e => .error e
      | .ok st =>
        match adaptGo ki (i + 1) (some f) (some st.recon) rest with
        | .ok tl => .ok (st :: tl)
        | .error e => .error e

/-- Loop of PFrameModelWithMotion.compress_no_adaptation (model_loader.py
188-208). -/
def naGo (ki : Nat) : Nat → Option T → List T → Except PyErr (List FrameOut)
  | _, _, [] => .ok []
  | i, pf, f :: rest =>
    if ki = 0 then .error .zeroDiv
    else
      let step? : Except PyErr FrameOut :=
        if i % ki = 0 then .ok (keyOut f)
        else
          match pf with
          | some p => .ok (naPredStep p f)
          | none => .error .typeNone
      match step? with
      | .error e => .error e
      | .ok st =>
        match naGo ki (i + 1) (some f) rest with
        | .ok tl => .ok (st :: tl)
        | .error e => .error e

/-- PFrameModelWithMotion.compress_with_adaptation (model_loader.py 210-235). -/
def compress_with_adaptation (ki : Nat) (frames : List T) : Except PyErr COut :=
  (adaptGo ki 0 none none frames).map fun l => ⟨l.map (·.entry), l.map (·.auxv)⟩

/-- PFrameModelWithMotion.compress_no_adaptation (model_loader.py 188-208). -/
def compress_no_adaptation (ki : Nat) (frames : List T) : Except PyErr COut :=
  (naGo ki 0 none frames).map fun l => ⟨l.map (·.entry), l.map (·.auxv)⟩

/-- PFrameModelWithMotion.compress (model_loader.py 237-240). -/
def compress (adaptation : Bool) (ki : Nat) (frames : List T) : Except PyErr COut :=
  if adaptation then compress_with_adaptation ki frames
  else compress_no_adaptation ki frames

/-- Per-frame feature reference the adaptive encoder derived from its
`prev_recon` (the feature map it warps); `none` at keyframes. -/
def vcRefs (ki : Nat) (frames : List T) : Except PyErr (List (Option T)) :=
  (adaptGo ki 0 none none frames).map (List.map (·.ref))

/-- Loop of PFrameModelWithMotion.decompress (model_loader.py 242-255): a
keyframe entry decodes via the embedded iframe model from `inp[0]`; a
predicted entry first decodes the motion record `inp[1]`
(`encoder.decompress`, modelled from the spec as the motion compressor's
decode), warps `prev_feat` by the decoded offsets (`align_features`, modelled
from the spec as the motion compensator of vsrvc.py 19, 31), then decodes the
residual record against the aligned feature; every iteration re-extracts
`prev_feat` from the new reconstruction (line 253). -/
def decGo (ki : Nat) : Nat → Option T → List (List T) → Except PyErr (List T)
  | _, _, [] => .ok []
  | i, pfeat, e :: rest =>
    if ki = 0 then .error .zeroDiv
    else
      let recon? : Except PyErr T :=
        if i % ki = 0 then
          match e with
          | r :: _ => .ok (iframeDec r)
          | [] => .error .index
        else
          match e with
          | r0 :: r1 :: _ =>
            match pfeat with
            | some pv =>
              .ok (T.reconHead (T.add (T.cDec r0) (T.motionComp pv (T.mDec r1))))
            | none => .error .typeNone
          | _ => .error .index
      match recon? with
      | .error err => .error err
      | .ok recon =>
        match decGo ki (i + 1) (some (T.extractFeats recon)) rest with
        | .ok tl => .ok (recon :: tl)
        | .error err => .error err

/-- PFrameModelWithMotion.decompress (model_loader.py 242-255). -/
def decompress (ki : Nat) (inputs : List (List T)) : Except PyErr (List T) :=
  decGo ki 0 none inputs

theorem naGoM_char (ki : Nat) (hki : 0 < ki) :
    ∀ (rest : List T) (i : Nat) (pf : Option T),
      (i % ki = 0 ∨ ∃ q, pf = some q) →
      ∃ l, naGo ki i pf rest = .ok l ∧ l.length = rest.length ∧
        ∀ j f, rest[j]? = some f →
          if (i + j) % ki = 0 then l[j]? = some (keyOut f)
          else ∃ p, prevFrameAt pf rest j = some p ∧ l[j]? = some (naPredStep p f) := by
  intro rest
  induction rest with
  | nil =>
    intro i pf _
    exact ⟨[], by simp [naGo], by simp, by intro j f h; simp at h⟩
  | cons f rest ih =>
    intro i pf hpre
    have hne : ki ≠ 0 := Nat.pos_iff_ne_zero.mp hki
    obtain ⟨tl, htl, hlen, hchar⟩ := ih (i + 1) (some f) (Or.inr ⟨f, rfl⟩)
    by_cases hk : i % ki = 0
    · refine ⟨keyOut f :: tl, ?_, by simp [hlen], ?_⟩
      · simp [naGo, hne, hk, htl]
      · intro j g hj
        cases j with
        | zero =>
          simp only [List.getElem?_cons_zero, Option.some_inj] at hj
          subst hj
          simp [hk]
        | succ j =>
          simp only [List.getElem?_cons_succ] at hj
          have harith : i + (j + 1) = (i + 1) + j := by omega
          have := hchar j g hj
          rw [harith]
          by_cases hk2 : ((i + 1) + j) % ki = 0
          · simpa [hk2] using this
          · simp only [hk2, if_false] at this ⊢
            obtain ⟨p, hp, hl⟩ := this
            refine ⟨p, ?_, by simpa using hl⟩
            calc prevFrameAt pf (f :: rest) (j + 1) = (f :: rest)[j]? := rfl
              _ = prevFrameAt (some f) rest j := (prevFrameAt_cons f rest j).symm
              _ = some p := hp
    · obtain ⟨q, rfl⟩ := hpre.resolve_left hk
      refine ⟨naPredStep q f :: tl, ?_, by simp [hlen], ?_⟩
      · simp [naGo, hne, hk, htl]
      · intro j g hj
        cases j with
        | zero =>
          simp only [List.getElem?_cons_zero, Option.some_inj] at hj
          subst hj
          simp only [Nat.add_zero, hk, if_false]
          exact ⟨q, rfl, by simp⟩
        | succ j =>
          simp only [List.getElem?_cons_succ] at hj
          have harith : i + (j + 1) = (i + 1) + j := by omega
          have := hchar j g hj
          rw [harith]
          by_cases hk2 : ((i + 1) + j) % ki = 0
          · simpa [hk2] using this
          · simp only [hk2, if_false] at this ⊢
            obtain ⟨p, hp, hl⟩ := this
            refine ⟨p, ?_, by simpa using hl⟩
            calc prevFrameAt (some q) (f :: rest) (j + 1) = (f :: rest)[j]? := rfl
              _ = prevFrameAt (some f) rest j := (prevFrameAt_cons f rest j).symm
              _ = some p := hp

theorem adaptGoM_char (ki : Nat) (hki : 0 < ki) :
    ∀ (rest : List T) (i : Nat) (pf pr : Option T),
      (i % ki = 0 ∨ ((∃ q, pf = some q) ∧ ∃ s, pr = some s)) →
      ∃ steps, adaptGo ki i pf pr rest = .ok steps ∧ steps.length = rest.length ∧
        ∀ j f, rest[j]? = some f →
          if (i + j) % ki = 0 then steps[j]? = some (keyStep f)
          else ∃ p r, prevFrameAt pf rest j = some p ∧ prevReconAt pr steps j = some r ∧
            steps[j]? = some (adaptPredStep r p f) := by
  intro rest
  induction rest with
  | nil =>
    intro i pf pr _
    exact ⟨[], by simp [adaptGo], by simp, by intro j f h; simp at h⟩
  | cons f rest ih =>
    intro i pf pr hpre
    have hne : ki ≠ 0 := Nat.pos_iff_ne_zero.mp hki
    by_cases hk : i % ki = 0
    · obtain ⟨tl, htl, hlen, hchar⟩ :=
        ih (i + 1) (some f) (some (keyStep f).recon) (Or.inr ⟨⟨f, rfl⟩, _, rfl⟩)
      refine ⟨keyStep f :: tl, ?_, by simp [hlen], ?_⟩
      · simp [adaptGo, hne, hk, htl]
      · intro j g hj
        cases j with
        | zero =>
          simp only [List.getElem?_cons_zero, Option.some_inj] at hj
          subst hj
          simp [hk]
        | succ j =>
          simp only [List.getElem?_cons_succ] at hj
          have harith : i + (j + 1) = (i + 1) + j := by omega
          have := hchar j g hj
          rw [harith]
          by_cases hk2 : ((i + 1) + j) % ki = 0
          · simpa [hk2] using this
          · simp only [hk2, if_false] at this ⊢
            obtain ⟨p, r, hp, hr, hl⟩ := this
            refine ⟨p, r, ?_, ?_, by simpa using hl⟩
            · calc prevFrameAt pf (f :: rest) (j + 1) = (f :: rest)[j]? := rfl
                _ = prevFrameAt (some f) rest j := (prevFrameAt_cons f rest j).symm
                _ = some p := hp
            · calc prevReconAt pr (keyStep f :: tl) (j + 1)
                  = ((keyStep f :: tl)[j]?).map (·.recon) := rfl
                _ = prevReconAt (some (keyStep f).recon) tl j :=
                    (prevReconAt_cons (keyStep f) tl j).symm
                _ = some r := hr
    · obtain ⟨⟨q, rfl⟩, s, rfl⟩ := hpre.resolve_left hk
      obtain ⟨tl, htl, hlen, hchar⟩ :=
        ih (i + 1) (some f) (some (adaptPredStep s q f).recon) (Or.inr ⟨⟨f, rfl⟩, _, rfl⟩)
      refine ⟨adaptPredStep s q f :: tl, ?_, by simp [hlen], ?_⟩
      · simp [adaptGo, hne, hk, htl]
      · intro j g hj
        cases j with
        | zero =>
          simp only [List.getElem?_cons_zero, Option.some_inj] at hj
          subst hj
          simp only [Nat.add_zero, hk, if_false]
          exact ⟨q, s, rfl, rfl, by simp⟩
        | succ j =>
          simp only [List.getElem?_cons_succ] at hj
          have harith : i + (j + 1) = (i + 1) + j := by omega
          have := hchar j g hj
          rw [harith]
          by_cases hk2 : ((i + 1) + j) % ki = 0
          · simpa [hk2] using this
          · simp only [hk2, if_false] at this ⊢
            obtain ⟨p, r, hp, hr, hl⟩ := this
            refine ⟨p, r, ?_, ?_, by simpa using hl⟩
            · calc prevFrameAt (some q) (f :: rest) (j + 1) = (f :: rest)[j]? := rfl
                _ = prevFrameAt (some f) rest j := (prevFrameAt_cons f rest j).symm
                _ = some p := hp
            · calc prevReconAt (some s) (adaptPredStep s q f :: tl) (j + 1)
                  = ((adaptPredStep s q f :: tl)[j]?).map (·.recon) := rfl
                _ = prevReconAt (some (adaptPredStep s q f).recon) tl j :=
                    (prevReconAt_cons (adaptPredStep s q f) tl j).symm
                _ = some r := hr

theorem adaptM_sim (ki : Nat) :
    ∀ (rest : List T) (i : Nat) (pf pr : Option T) (steps : List Step),
      adaptGo ki i pf pr rest = .ok steps →
      decGo ki i (pr.map T.extractFeats) (steps.map (·.entry)) = .ok (steps.map (·.recon)) := by
  intro rest
  induction rest with
  | nil =>
    intro i pf pr steps h
    simp only [adaptGo, Except.ok.injEq] at h
    subst h
    simp [decGo]
  | cons f rest ih =>
    intro i pf pr steps h
    simp only [adaptGo] at h
    by_cases hz : ki = 0
    · simp [hz] at h
    · simp only [hz, if_false] at h
      by_cases hk : i % ki = 0
      · simp only [hk, if_true] at h
        rcases htl : adaptGo ki (i + 1) (some f) (some (keyStep f).recon) rest with e | tl
        · rw [htl] at h; exact absurd h (by simp)
        · rw [htl] at h
          simp only [Except.ok.injEq] at h
          subst h
          have ihr := ih (i + 1) (some f) (some (keyStep f).recon) tl htl
          simp only [Option.map_some', keyStep] at ihr ⊢
          simp only [List.map_cons, decGo, hz, if_false, hk, if_true]
          rw [ihr]
      · simp only [hk, if_false] at h
        rcases pr with _ | prv
        · simp at h
        · rcases pf with _ | p
          · simp at h
          · simp only at h
            rcases htl : adaptGo ki (i + 1) (some f) (some (adaptPredStep prv p f).recon) rest
              with e | tl
            · rw [htl] at h; exact absurd h (by simp)
            · rw [htl] at h
              simp only [Except.ok.injEq] at h
              subst h
              have ihr := ih (i + 1) (some f) (some (adaptPredStep prv p f).recon) tl htl
              simp only [Option.map_some', adaptPredStep] at ihr ⊢
              simp only [List.map_cons, decGo, hz, if_false, hk, if_true]
              rw [ihr]

theorem decGoM_char (ki : Nat) (hki : 0 < ki) :
    ∀ (entries : List (List T)) (i : Nat) (pfeat : Option T),
      (i % ki = 0 ∨ ∃ q, pfeat = some q) →
      (∀ (j : Nat) (e : List T), entries[j]? = some e → 2 ≤ e.length) →
      ∃ recons, decGo ki i pfeat entries = .ok recons ∧
        recons.length = entries.length ∧
        ∀ j r, recons[j]? = some r → (reconIsKey r = true ↔ (i + j) % ki = 0) := by
  intro entries
  induction entries with
  | nil =>
    intro i pfeat _ _
    exact ⟨[], by simp [decGo], by simp, by intro j r h; simp at h⟩
  | cons e rest ih =>
    intro i pfeat hpre hne
    have hz : ki ≠ 0 := Nat.pos_iff_ne_zero.mp hki
    obtain ⟨r0, r1, e', rfl⟩ : ∃ r0 r1 e', e = r0 :: r1 :: e' := by
      rcases e with _ | ⟨r0, _ | ⟨r1, e'⟩⟩
      · have := hne 0 [] (by simp)
        simp at this
      · have := hne 0 [r0] (by simp)
        simp at this
      · exact ⟨r0, r1, e', rfl⟩
    have hne' : ∀ (j : Nat) (x : List T), rest[j]? = some x → 2 ≤ x.length := fun j x hx =>
      hne (j + 1) x (by simpa using hx)
    by_cases hk : i % ki = 0
    · obtain ⟨tl, htl, hlen, hchar⟩ :=
        ih (i + 1) (some (T.extractFeats (iframeDec r0))) (Or.inr ⟨_, rfl⟩) hne'
      refine ⟨iframeDec r0 :: tl, ?_, by simp [hlen], ?_⟩
      · simp [decGo, hz, hk, htl]
      · intro j r hj
        cases j with
        | zero =>
          simp only [List.getElem?_cons_zero, Option.some_inj] at hj
          subst hj
          simp [reconIsKey, iframeDec, hk]
        | succ j =>
          simp only [List.getElem?_cons_succ] at hj
          have harith : i + (j + 1) = (i + 1) + j := by omega
          rw [harith]
          exact hchar j r hj
    · obtain ⟨q, rfl⟩ := hpre.resolve_left hk
      obtain ⟨tl, htl, hlen, hchar⟩ :=
        ih (i + 1)
          (some (T.extractFeats (T.reconHead (T.add (T.cDec r0) (T.motionComp q (T.mDec r1))))))
          (Or.inr ⟨_, rfl⟩) hne'
      refine ⟨T.reconHead (T.add (T.cDec r0) (T.motionComp q (T.mDec r1))) :: tl, ?_,
        by simp [hlen], ?_⟩
      · simp [decGo, hz, hk, htl]
      · intro j r hj
        cases j with
        | zero =>
          simp only [List.getElem?_cons_zero, Option.some_inj] at hj
          subst hj
          simp [reconIsKey, hk]
        | succ j =>
          simp only [List.getElem?_cons_succ] at hj
          have harith : i + (j + 1) = (i + 1) + j := by omega
          rw [harith]
          exact hchar j r hj

end PFrameModelWithMotion

theorem pf_na_top (ki : Nat) (hki : 0 < ki) (frames : List T) :
    ∃ l, PFrameModel.naGo ki 0 none frames = .ok l ∧ l.length = frames.length ∧
      ∀ i f, frames[i]? = some f →
        if i % ki = 0 then l[i]? = some (PFrameModel.keyOut f)
        else ∃ p, frames[i - 1]? = some p ∧ l[i]? = some (PFrameModel.naPredStep p f) := by
  obtain ⟨l, hgo, hlen, hchar⟩ :=
    PFrameModel.naGo_char ki hki frames 0 none (Or.inl (Nat.zero_mod ki))
  refine ⟨l, hgo, hlen, ?_⟩
  intro i f hf
  have := hchar i f hf
  rw [Nat.zero_add] at this
  by_cases hk : i % ki = 0
  · simpa [hk] using this
  · simp only [hk, if_false] at this ⊢
    obtain ⟨p, hp, hl⟩ := this
    have hi0 : i ≠ 0 := fun h => hk (h ▸ Nat.zero_mod ki)
    obtain ⟨j, rfl⟩ := Nat.exists_eq_succ_of_ne_zero hi0
    exact ⟨p, hp, hl⟩

theorem pfm_na_top (ki : Nat) (hki : 0 < ki) (frames : List T) :
    ∃ l, PFrameModelWithMotion.naGo ki 0 none frames = .ok l ∧ l.length = frames.length ∧
      ∀ i f, frames[i]? = some f →
        if i % ki = 0 then l[i]? = some (PFrameModelWithMotion.keyOut f)
        else ∃ p, frames[i - 1]? = some p ∧
          l[i]? = some (PFrameModelWithMotion.naPredStep p f) := by
  obtain ⟨l, hgo, hlen, hchar⟩ :=
    PFrameModelWithMotion.naGoM_char ki hki frames 0 none (Or.inl (Nat.zero_mod ki))
  refine ⟨l, hgo, hlen, ?_⟩
  intro i f hf
  have := hchar i f hf
  rw [Nat.zero_add] at this
  by_cases hk : i % ki = 0
  · simpa [hk] using this
  · simp only [hk, if_false] at this ⊢
    obtain ⟨p, hp, hl⟩ := this
    have hi0 : i ≠ 0 := fun h => hk (h ▸ Nat.zero_mod ki)
    obtain ⟨j, rfl⟩ := Nat.exists_eq_succ_of_ne_zero hi0
    exact ⟨p, hp, hl⟩

theorem pf_adapt_top (ki : Nat) (hki : 0 < ki) (frames : List T) :
    ∃ steps, PFrameModel.adaptGo ki 0 none none frames = .ok steps ∧
      steps.length = frames.length ∧
      ∀ i f, frames[i]? = some f →
        if i % ki = 0 then steps[i]? = some (PFrameModel.keyStep f)
        else ∃ p st, frames[i - 1]? = some p ∧ steps[i - 1]? = some st ∧
          steps[i]? = some (PFrameModel.adaptPredStep st.recon p f) := by
  obtain ⟨steps, hgo, hlen, hchar⟩ :=
    PFrameModel.adaptGo_char ki hki frames 0 none none (Or.inl (Nat.zero_mod ki))
  refine ⟨steps, hgo, hlen, ?_⟩
  intro i f hf
  have := hchar i f hf
  rw [Nat.zero_add] at this
  by_cases hk : i % ki = 0
  · simpa [hk] using this
  · simp only [hk, if_false] at this ⊢
    obtain ⟨p, r, hp, hr, hl⟩ := this
    have hi0 : i ≠ 0 := fun h => hk (h ▸ Nat.zero_mod ki)
    obtain ⟨j, rfl⟩ := Nat.exists_eq_succ_of_ne_zero hi0
    obtain ⟨st, hst, hstr⟩ : ∃ st, steps[j]? = some st ∧ st.recon = r := by
      rcases hsz : steps[j]? with _ | st
      · rw [show prevReconAt none steps (j + 1) = (steps[j]?).map (·.recon) from rfl,
          hsz] at hr
        simp at hr
      · rw [show prevReconAt none steps (j + 1) = (steps[j]?).map (·.recon) from rfl,
          hsz] at hr
        simp only [Option.map_some', Option.some_inj] at hr
        exact ⟨st, rfl, hr⟩
    exact ⟨p, st, hp, hst, by rw [hstr]; simpa using hl⟩

theorem pfm_adapt_top (ki : Nat) (hki : 0 < ki) (frames : List T) :
    ∃ steps, PFrameModelWithMotion.adaptGo ki 0 none none frames = .ok steps ∧
      steps.length = frames.length ∧
      ∀ i f, frames[i]? = some f →
        if i % ki = 0 then steps[i]? = some (PFrameModelWithMotion.keyStep f)
        else ∃ p st, frames[i - 1]? = some p ∧ steps[i - 1]? = some st ∧
          steps[i]? = some (PFrameModelWithMotion.adaptPredStep st.recon p f) := by
  obtain ⟨steps, hgo, hlen, hchar⟩ :=
    PFrameModelWithMotion.adaptGoM_char ki hki frames 0 none none (Or.inl (Nat.zero_mod ki))
  refine ⟨steps, hgo, hlen, ?_⟩
  intro i f hf
  have := hchar i f hf
  rw [Nat.zero_add] at this
  by_cases hk : i % ki = 0
  · simpa [hk] using this
  · simp only [hk, if_false] at this ⊢
    obtain ⟨p, r, hp, hr, hl⟩ := this
    have hi0 : i ≠ 0 := fun h => hk (h ▸ Nat.zero_mod ki)
    obtain ⟨j, rfl⟩ := Nat.exists_eq_succ_of_ne_zero hi0
    obtain ⟨st, hst, hstr⟩ : ∃ st, steps[j]? = some st ∧ st.recon = r := by
      rcases hsz : steps[j]? with _ | st
      · rw [show prevReconAt none steps (j + 1) = (steps[j]?).map (·.recon) from rfl,
          hsz] at hr
        simp at hr
      · rw [show prevReconAt none steps (j + 1) = (steps[j]?).map (·.recon) from rfl,
          hsz] at hr
        simp only [Option.map_some', Option.some_inj] at hr
        exact ⟨st, rfl, hr⟩
    exact ⟨p, st, hp, hst, by rw [hstr]; simpa using hl⟩

theorem getElem?_some_lt {α : Type _} {l : List α} {i : Nat} {a : α}
    (h : l[i]? = some a) : i < l.length := by
  by_contra hlt
  push_neg at hlt
  rw [List.getElem?_eq_none hlt] at h
  exact Option.noConfusion h

theorem pf_c2_block (ki : Nat) (frames : List T) (adaptation : Bool) (hki : 0 < ki) :
    ∃ out recons,
      PFrameModel.compress adaptation ki frames = .ok out ∧
      out.vc.length = frames.length ∧
      (∀ (i : Nat) (e : List T), out.vc[i]? = some e → (vcEntryIsKey e = true ↔ i % ki = 0)) ∧
      PFrameModel.decompress ki out.vc = .ok recons ∧
      recons.length = frames.length ∧
      (∀ (i : Nat) (r : T), recons[i]? = some r → (reconIsKey r = true ↔ i % ki = 0)) := by
  cases adaptation with
  | true =>
    obtain ⟨steps, hgo, hlen, hchar⟩ := pf_adapt_top ki hki frames
    have hstep_shape : ∀ (i : Nat) (st : Step), steps[i]? = some st →
        (vcEntryIsKey st.entry = true ↔ i % ki = 0) ∧
        (reconIsKey st.recon = true ↔ i % ki = 0) := by
      intro i st hsz
      have hilt : i < frames.length := hlen ▸ getElem?_some_lt hsz
      have hf := hchar i _ (List.getElem?_eq_getElem hilt)
      by_cases hk : i % ki = 0
      · rw [if_pos hk, hsz] at hf
        obtain rfl := Option.some_inj.mp hf
        constructor
        · simp [PFrameModel.keyStep, iframeVc, vcEntryIsKey, hk]
        · simp [PFrameModel.keyStep, iframeDec, reconIsKey, hk]
      · rw [if_neg hk] at hf
        obtain ⟨p, st', hp, hst', hstep⟩ := hf
        rw [hsz] at hstep
        obtain rfl := Option.some_inj.mp hstep
        constructor
        · simp [PFrameModel.adaptPredStep, vcEntryIsKey, hk]
        · simp [PFrameModel.adaptPredStep, reconIsKey, hk]
    refine ⟨⟨steps.map (·.entry), steps.map (·.auxv)⟩, steps.map (·.recon),
      ?_, ?_, ?_, ?_, ?_, ?_⟩
    · have hc : PFrameModel.compress true ki frames
          = (PFrameModel.adaptGo ki 0 none none frames).map
              fun l => ⟨l.map (·.entry), l.map (·.auxv)⟩ := rfl
      rw [hc, hgo]
      rfl
    · simp [hlen]
    · intro i e hvc
      rw [List.getElem?_map] at hvc
      rcases hsz : steps[i]? with _ | st
      · rw [hsz] at hvc; simp at hvc
      · rw [hsz] at hvc
        simp only [Option.map_some', Option.some_inj] at hvc
        subst hvc
        exact (hstep_shape i st hsz).1
    · simpa [PFrameModel.decompress] using
        PFrameModel.adapt_sim ki frames 0 none none steps hgo
    · simp [hlen]
    · intro i r hr
      rw [List.getElem?_map] at hr
      rcases hsz : steps[i]? with _ | st
      · rw [hsz] at hr; simp at hr
      · rw [hsz] at hr
        simp only [Option.map_some', Option.some_inj] at hr
        subst hr
        exact (hstep_shape i st hsz).2
  | false =>
    obtain ⟨l, hgo, hlen, hchar⟩ := pf_na_top ki hki frames
    have hout_shape : ∀ (i : Nat) (fo : FrameOut), l[i]? = some fo →
        (vcEntryIsKey fo.entry = true ↔ i % ki = 0) ∧ fo.entry ≠ [] := by
      intro i fo hsz
      have hilt : i < frames.length := hlen ▸ getElem?_some_lt hsz
      have hf := hchar i _ (List.getElem?_eq_getElem hilt)
      by_cases hk : i % ki = 0
      · rw [if_pos hk, hsz] at hf
        obtain rfl := Option.some_inj.mp hf
        constructor
        · simp [PFrameModel.keyOut, iframeVc, vcEntryIsKey, hk]
        · simp [PFrameModel.keyOut, iframeVc]
      · rw [if_neg hk] at hf
        obtain ⟨p, hp, hfo⟩ := hf
        rw [hsz] at hfo
        obtain rfl := Option.some_inj.mp hfo
        constructor
        · simp [PFrameModel.naPredStep, vcEntryIsKey, hk]
        · simp [PFrameModel.naPredStep]
    have hnonempty : ∀ (j : Nat) (e : List T), (l.map (·.entry))[j]? = some e → e ≠ [] := by
      intro j e hj
      rw [List.getElem?_map] at hj
      rcases hsz : l[j]? with _ | fo
      · rw [hsz] at hj; simp at hj
      · rw [hsz] at hj
        simp only [Option.map_some', Option.some_inj] at hj
        subst hj
        exact (hout_shape j fo hsz).2
    obtain ⟨recons, hdec, hrlen, hrchar⟩ :=
      PFrameModel.decGo_char ki hki (l.map (·.entry)) 0 none
        (Or.inl (Nat.zero_mod ki)) hnonempty
    refine ⟨⟨l.map (·.entry), l.map (·.auxv)⟩, recons, ?_, ?_, ?_, ?_, ?_, ?_⟩
    · have hc : PFrameModel.compress false ki frames
          = (PFrameModel.naGo ki 0 none frames).map
              fun l => ⟨l.map (·.entry), l.map (·.auxv)⟩ := rfl
      rw [hc, hgo]
      rfl
    · simp [hlen]
    · intro i e hvc
      rw [List.getElem?_map] at hvc
      rcases hsz : l[i]? with _ | fo
      · rw [hsz] at hvc; simp at hvc
      · rw [hsz] at hvc
        simp only [Option.map_some', Option.some_inj] at hvc
        subst hvc
        exact (hout_shape i fo hsz).1
    · exact hdec
    · rw [hrlen]
      simp [hlen]
    · intro i r hr
      have := hrchar i r hr
      rwa [Nat.zero_add] at this

theorem pfm_c2_block (ki : Nat) (frames : List T) (adaptation : Bool) (hki : 0 < ki) :
    ∃ out recons,
      PFrameModelWithMotion.compress adaptation ki frames = .ok out ∧
      out.vc.length = frames.length ∧
      (∀ (i : Nat) (e : List T), out.vc[i]? = some e → (vcEntryIsKey e = true ↔ i % ki = 0)) ∧
      PFrameModelWithMotion.decompress ki out.vc = .ok recons ∧
      recons.length = frames.length ∧
      (∀ (i : Nat) (r : T), recons[i]? = some r → (reconIsKey r = true ↔ i % ki = 0)) := by
  cases adaptation with
  | true =>
    obtain ⟨steps, hgo, hlen, hchar⟩ := pfm_adapt_top ki hki frames
    have hstep_shape : ∀ (i : Nat) (st : Step), steps[i]? = some st →
        (vcEntryIsKey st.entry = true ↔ i % ki = 0) ∧
        (reconIsKey st.recon = true ↔ i % ki = 0) := by
      intro i st hsz
      have hilt : i < frames.length := hlen ▸ getElem?_some_lt hsz
      have hf := hchar i _ (List.getElem?_eq_getElem hilt)
      by_cases hk : i % ki = 0
      · rw [if_pos hk, hsz] at hf
        obtain rfl := Option.some_inj.mp hf
        constructor
        · simp [PFrameModelWithMotion.keyStep, vcEntryIsKey, hk]
        · simp [PFrameModelWithMotion.keyStep, iframeDec, reconIsKey, hk]
      · rw [if_neg hk] at hf
        obtain ⟨p, st', hp, hst', hstep⟩ := hf
        rw [hsz] at hstep
        obtain rfl := Option.some_inj.mp hstep
        constructor
        · simp [PFrameModelWithMotion.adaptPredStep, vcEntryIsKey, hk]
        · simp [PFrameModelWithMotion.adaptPredStep, reconIsKey, hk]
    refine ⟨⟨steps.map (·.entry), steps.map (·.auxv)⟩, steps.map (·.recon),
      ?_, ?_, ?_, ?_, ?_, ?_⟩
    · have hc : PFrameModelWithMotion.compress true ki frames
          = (PFrameModelWithMotion.adaptGo ki 0 none none frames).map
              fun l => ⟨l.map (·.entry), l.map (·.auxv)⟩ := rfl
      rw [hc, hgo]
      rfl
    · simp [hlen]
    · intro i e hvc
      rw [List.getElem?_map] at hvc
      rcases hsz : steps[i]? with _ | st
      · rw [hsz] at hvc; simp at hvc
      · rw [hsz] at hvc
        simp only [Option.map_some', Option.some_inj] at hvc
        subst hvc
        exact (hstep_shape i st hsz).1
    · simpa [PFrameModelWithMotion.decompress] using
        PFrameModelWithMotion.adaptM_sim ki frames 0 none none steps hgo
    · simp [hlen]
    · intro i r hr
      rw [List.getElem?_map] at hr
      rcases hsz : steps[i]? with _ | st
      · rw [hsz] at hr; simp at hr
      · rw [hsz] at hr
        simp only [Option.map_some', Option.some_inj] at hr
        subst hr
        exact (hstep_shape i st hsz).2
  | false =>
    obtain ⟨l, hgo, hlen, hchar⟩ := pfm_na_top ki hki frames
    have hout_shape : ∀ (i : Nat) (fo : FrameOut), l[i]? = some fo →
        (vcEntryIsKey fo.entry = true ↔ i % ki = 0) ∧ 2 ≤ fo.entry.length := by
      intro i fo hsz
      have hilt : i < frames.length := hlen ▸ getElem?_some_lt hsz
      have hf := hchar i _ (List.getElem?_eq_getElem hilt)
      by_cases hk : i % ki = 0
      · rw [if_pos hk, hsz] at hf
        obtain rfl := Option.some_inj.mp hf
        constructor
        · simp [PFrameModelWithMotion.keyOut, vcEntryIsKey, hk]
        · simp [PFrameModelWithMotion.keyOut]
      · rw [if_neg hk] at hf
        obtain ⟨p, hp, hfo⟩ := hf
        rw [hsz] at hfo
        obtain rfl := Option.some_inj.mp hfo
        constructor
        · simp [PFrameModelWithMotion.naPredStep, vcEntryIsKey, hk]
        · simp [PFrameModelWithMotion.naPredStep]
    have hlong : ∀ (j : Nat) (e : List T), (l.map (·.entry))[j]? = some e → 2 ≤ e.length := by
      intro j e hj
      rw [List.getElem?_map] at hj
      rcases hsz : l[j]? with _ | fo
      · rw [hsz] at hj; simp at hj
      · rw [hsz] at hj
        simp only [Option.map_some', Option.some_inj] at hj
        subst hj
        exact (hout_shape j fo hsz).2
    obtain ⟨recons, hdec, hrlen, hrchar⟩ :=
      PFrameModelWithMotion.decGoM_char ki hki (l.map (·.entry)) 0 none
        (Or.inl (Nat.zero_mod ki)) hlong
    refine ⟨⟨l.map (·.entry), l.map (·.auxv)⟩, recons, ?_, ?_, ?_, ?_, ?_, ?_⟩
    · have hc : PFrameModelWithMotion.compress false ki frames
          = (PFrameModelWithMotion.naGo ki 0 none frames).map
              fun l => ⟨l.map (·.entry), l.map (·.auxv)⟩ := rfl
      rw [hc, hgo]
      rfl
    · simp [hlen]
    · intro i e hvc
      rw [List.getElem?_map] at hvc
      rcases hsz : l[i]? with _ | fo
      · rw [hsz] at hvc; simp at hvc
      · rw [hsz] at hvc
        simp only [Option.map_some', Option.some_inj] at hvc
        subst hvc
        exact (hout_shape i fo hsz).1
    · exact hdec
    · rw [hrlen]
      simp [hlen]
    · intro i r hr
      have := hrchar i r hr
      rwa [Nat.zero_add] at this

/-- C2: For every keyframe_interval ≥ 1 and every video, both compress and
decompress of the predictive models route frame index i through the keyframe
path (the embedded iframe_model) exactly when i mod keyframe_interval = 0 and
through the predicted path otherwise; in particular frame 0 always takes the
keyframe path, and with keyframe_interval = 1 every frame takes the keyframe
path. -/
theorem c2_keyframe_routing :
    (∀ (ki : Nat) (frames : List T) (adaptation : Bool), 0 < ki →
      (∃ out recons,
        PFrameModel.compress adaptation ki frames = .ok out ∧
        out.vc.length = frames.length ∧
        (∀ (i : Nat) (e : List T), out.vc[i]? = some e →
          (vcEntryIsKey e = true ↔ i % ki = 0)) ∧
        PFrameModel.decompress ki out.vc = .ok recons ∧
        recons.length = frames.length ∧
        (∀ (i : Nat) (r : T), recons[i]? = some r →
          (reconIsKey r = true ↔ i % ki = 0))) ∧
      (∃ out recons,
        PFrameModelWithMotion.compress adaptation ki frames = .ok out ∧
        out.vc.length = frames.length ∧
        (∀ (i : Nat) (e : List T), out.vc[i]? = some e →
          (vcEntryIsKey e = true ↔ i % ki = 0)) ∧
        PFrameModelWithMotion.decompress ki out.vc = .ok recons ∧
        recons.length = frames.length ∧
        (∀ (i : Nat) (r : T), recons[i]? = some r →
          (reconIsKey r = true ↔ i % ki = 0)))) ∧
    (∀ (ki : Nat) (frames : List T) (adaptation : Bool) (out : COut), 0 < ki →
      frames ≠ [] →
      (PFrameModel.compress adaptation ki frames = .ok out ∨
       PFrameModelWithMotion.compress adaptation ki frames = .ok out) →
      ∃ e, out.vc[0]? = some e ∧ vcEntryIsKey e = true) ∧
    (∀ (frames : List T) (adaptation : Bool) (out : COut) (i : Nat) (e : List T),
      (PFrameModel.compress adaptation 1 frames = .ok out ∨
       PFrameModelWithMotion.compress adaptation 1 frames = .ok out) →
      out.vc[i]? = some e → vcEntryIsKey e = true) := by
  refine ⟨?_, ?_, ?_⟩
  · intro ki frames adaptation hki
    exact ⟨pf_c2_block ki frames adaptation hki, pfm_c2_block ki frames adaptation hki⟩
  · intro ki frames adaptation out hki hne hcomp
    have hfl : 0 < frames.length := List.length_pos.mpr hne
    rcases hcomp with hcomp | hcomp
    · obtain ⟨out', recons, hc, hvlen, hvchar, _, _, _⟩ := pf_c2_block ki frames adaptation hki
      rw [hcomp] at hc
      obtain rfl := (Except.ok.injEq _ _).mp hc
      have h0 : 0 < out.vc.length := hvlen ▸ hfl
      refine ⟨out.vc[0], List.getElem?_eq_getElem h0, ?_⟩
      exact (hvchar 0 _ (List.getElem?_eq_getElem h0)).mpr (Nat.zero_mod ki)
    · obtain ⟨out', recons, hc, hvlen, hvchar, _, _, _⟩ := pfm_c2_block ki frames adaptation hki
      rw [hcomp] at hc
      obtain rfl := (Except.ok.injEq _ _).mp hc
      have h0 : 0 < out.vc.length := hvlen ▸ hfl
      refine ⟨out.vc[0], List.getElem?_eq_getElem h0, ?_⟩
      exact (hvchar 0 _ (List.getElem?_eq_getElem h0)).mpr (Nat.zero_mod ki)
  · intro frames adaptation out i e hcomp hvc
    rcases hcomp with hcomp | hcomp
    · obtain ⟨out', recons, hc, hvlen, hvchar, _, _, _⟩ :=
        pf_c2_block 1 frames adaptation Nat.one_pos
      rw [hcomp] at hc
      obtain rfl := (Except.ok.injEq _ _).mp hc
      exact (hvchar i e hvc).mpr (Nat.mod_one i)
    · obtain ⟨out', recons, hc, hvlen, hvchar, _, _, _⟩ :=
        pfm_c2_block 1 frames adaptation Nat.one_pos
      rw [hcomp] at hc
      obtain rfl := (Except.ok.injEq _ _).mp hc
      exact (hvchar i e hvc).mpr (Nat.mod_one i)

/-- Witness for C2: the four-frame video of concrete scenario 1 with
keyframe_interval 2, and the keyframe_interval 1 scenario. -/
theorem c2_keyframe_routing_witness :
    (0 : Nat) < 2 ∧
    ((∃ out recons,
        PFrameModel.compress false 2 [T.atom 0, T.atom 1, T.atom 2, T.atom 3] = .ok out ∧
        out.vc.length = ([T.atom 0, T.atom 1, T.atom 2, T.atom 3] : List T).length ∧
        (∀ (i : Nat) (e : List T), out.vc[i]? = some e →
          (vcEntryIsKey e = true ↔ i % 2 = 0)) ∧
        PFrameModel.decompress 2 out.vc = .ok recons ∧
        recons.length = ([T.atom 0, T.atom 1, T.atom 2, T.atom 3] : List T).length ∧
        (∀ (i : Nat) (r : T), recons[i]? = some r →
          (reconIsKey r = true ↔ i % 2 = 0))) ∧
     (∃ out recons,
        PFrameModelWithMotion.compress false 2 [T.atom 0, T.atom 1, T.atom 2, T.atom 3]
          = .ok out ∧
        out.vc.length = ([T.atom 0, T.atom 1, T.atom 2, T.atom 3] : List T).length ∧
        (∀ (i : Nat) (e : List T), out.vc[i]? = some e →
          (vcEntryIsKey e = true ↔ i % 2 = 0)) ∧
        PFrameModelWithMotion.decompress 2 out.vc = .ok recons ∧
        recons.length = ([T.atom 0, T.atom 1, T.atom 2, T.atom 3] : List T).length ∧
        (∀ (i : Nat) (r : T), recons[i]? = some r →
          (reconIsKey r = true ↔ i % 2 = 0)))) :=
  ⟨by decide,
   c2_keyframe_routing.1 2 [T.atom 0, T.atom 1, T.atom 2, T.atom 3] false (by decide)⟩

/-- C4: For the PredictiveWithMotion policy, for every video and every frame
index, the "vc" entry of the compress output is a pair (content record,
motion record) whose motion record is the empty sentinel exactly at keyframe
indices (i mod keyframe_interval = 0) and a populated motion record at every
other index. -/
theorem c4_motion_record_uniformity (adaptation : Bool) (ki : Nat) (frames : List T)
    (hki : 0 < ki) :
    ∃ out, PFrameModelWithMotion.compress adaptation ki frames = .ok out ∧
      out.vc.length = frames.length ∧
      ∀ (i : Nat) (e : List T), out.vc[i]? = some e →
        ∃ c m, e = [c, m] ∧ (m = T.sentinelRec ↔ i % ki = 0) ∧
          (i % ki ≠ 0 → ∃ off, m = T.motRec off) := by
  cases adaptation with
  | true =>
    obtain ⟨steps, hgo, hlen, hchar⟩ := pfm_adapt_top ki hki frames
    refine ⟨⟨steps.map (·.entry), steps.map (·.auxv)⟩, ?_, by simp [hlen], ?_⟩
    · have hc : PFrameModelWithMotion.compress true ki frames
          = (PFrameModelWithMotion.adaptGo ki 0 none none frames).map
              fun l => ⟨l.map (·.entry), l.map (·.auxv)⟩ := rfl
      rw [hc, hgo]
      rfl
    · intro i e hvc
      rw [List.getElem?_map] at hvc
      rcases hsz : steps[i]? with _ | st
      · rw [hsz] at hvc; simp at hvc
      · rw [hsz] at hvc
        simp only [Option.map_some', Option.some_inj] at hvc
        subst hvc
        have hilt : i < frames.length := hlen ▸ getElem?_some_lt hsz
        have hf := hchar i _ (List.getElem?_eq_getElem hilt)
        by_cases hk : i % ki = 0
        · rw [if_pos hk, hsz] at hf
          obtain rfl := Option.some_inj.mp hf
          exact ⟨T.iEncRec frames[i], T.sentinelRec, rfl, by simp [hk],
            fun hcon => absurd hk hcon⟩
        · rw [if_neg hk] at hf
          obtain ⟨q, st', hq, hst', hstep⟩ := hf
          rw [hsz] at hstep
          obtain rfl := Option.some_inj.mp hstep
          refine ⟨_, _, rfl, ?_, fun _ => ⟨_, rfl⟩⟩
          simp [hk]
  | false =>
    obtain ⟨l, hgo, hlen, hchar⟩ := pfm_na_top ki hki frames
    refine ⟨⟨l.map (·.entry), l.map (·.auxv)⟩, ?_, by simp [hlen], ?_⟩
    · have hc : PFrameModelWithMotion.compress false ki frames
          = (PFrameModelWithMotion.naGo ki 0 none frames).map
              fun l => ⟨l.map (·.entry), l.map (·.auxv)⟩ := rfl
      rw [hc, hgo]
      rfl
    · intro i e hvc
      rw [List.getElem?_map] at hvc
      rcases hsz : l[i]? with _ | fo
      · rw [hsz] at hvc; simp at hvc
      · rw [hsz] at hvc
        simp only [Option.map_some', Option.some_inj] at hvc
        subst hvc
        have hilt : i < frames.length := hlen ▸ getElem?_some_lt hsz
        have hf := hchar i _ (List.getElem?_eq_getElem hilt)
        by_cases hk : i % ki = 0
        · rw [if_pos hk, hsz] at hf
          obtain rfl := Option.some_inj.mp hf
          exact ⟨T.iEncRec frames[i], T.sentinelRec, rfl, by simp [hk],
            fun hcon => absurd hk hcon⟩
        · rw [if_neg hk] at hf
          obtain ⟨q, hq, hfo⟩ := hf
          rw [hsz] at hfo
          obtain rfl := Option.some_inj.mp hfo
          refine ⟨_, _, rfl, ?_, fun _ => ⟨_, rfl⟩⟩
          simp [hk]

/-- Witness for C4 at interval 2 and a three-frame video. -/
theorem c4_motion_record_uniformity_witness :
    (0 : Nat) < 2 ∧
    (∃ out, PFrameModelWithMotion.compress false 2 [T.atom 0, T.atom 1, T.atom 2] = .ok out ∧
      out.vc.length = ([T.atom 0, T.atom 1, T.atom 2] : List T).length ∧
      ∀ (i : Nat) (e : List T), out.vc[i]? = some e →
        ∃ c m, e = [c, m] ∧ (m = T.sentinelRec ↔ i % 2 = 0) ∧
          (i % 2 ≠ 0 → ∃ off, m = T.motRec off)) :=
  ⟨by decide, c4_motion_record_uniformity false 2 [T.atom 0, T.atom 1, T.atom 2] (by decide)⟩

/-- C7: For the predictive models with adaptation=false, the record emitted
for a predicted frame is a function of only the raw frame pair
video[:, i-1:i+1] (and the fixed model parameters): two input videos that
agree on frames i-1 and i produce identical per-frame records at index i
regardless of earlier frames, and the emitted entry is literally the
no-adaptation predicted-frame function of those two frames, which consumes no
decoder-side reconstruction. -/
theorem c7_no_adaptation_locality (ki : Nat) (frames frames' : List T) (i : Nat) (p f : T)
    (hki : 0 < ki) (hpred : i % ki ≠ 0)
    (h1 : frames[i - 1]? = some p) (h2 : frames[i]? = some f)
    (h1' : frames'[i - 1]? = some p) (h2' : frames'[i]? = some f) :
    (∃ out out',
      PFrameModel.compress_no_adaptation ki frames = .ok out ∧
      PFrameModel.compress_no_adaptation ki frames' = .ok out' ∧
      out.vc[i]? = some (PFrameModel.naPredStep p f).entry ∧
      out'.vc[i]? = some (PFrameModel.naPredStep p f).entry ∧
      out.aux[i]? = some (PFrameModel.naPredStep p f).auxv ∧
      out'.aux[i]? = some (PFrameModel.naPredStep p f).auxv) ∧
    (∃ out out',
      PFrameModelWithMotion.compress_no_adaptation ki frames = .ok out ∧
      PFrameModelWithMotion.compress_no_adaptation ki frames' = .ok out' ∧
      out.vc[i]? = some (PFrameModelWithMotion.naPredStep p f).entry ∧
      out'.vc[i]? = some (PFrameModelWithMotion.naPredStep p f).entry ∧
      out.aux[i]? = some (PFrameModelWithMotion.naPredStep p f).auxv ∧
      out'.aux[i]? = some (PFrameModelWithMotion.naPredStep p f).auxv) := by
  constructor
  · obtain ⟨l, hgo, hlen, hchar⟩ := pf_na_top ki hki frames
    obtain ⟨l', hgo', hlen', hchar'⟩ := pf_na_top ki hki frames'
    have hf := hchar i f h2
    rw [if_neg hpred] at hf
    obtain ⟨p0, hp0, hl⟩ := hf
    rw [h1] at hp0
    obtain rfl := Option.some_inj.mp hp0
    have hf' := hchar' i f h2'
    rw [if_neg hpred] at hf'
    obtain ⟨p0', hp0', hl'⟩ := hf'
    rw [h1'] at hp0'
    obtain rfl := Option.some_inj.mp hp0'
    refine ⟨⟨l.map (·.entry), l.map (·.auxv)⟩, ⟨l'.map (·.entry), l'.map (·.auxv)⟩,
      ?_, ?_, ?_, ?_, ?_, ?_⟩
    · rw [PFrameModel.compress_no_adaptation, hgo]
      rfl
    · rw [PFrameModel.compress_no_adaptation, hgo']
      rfl
    · rw [List.getElem?_map, hl]
      rfl
    · rw [List.getElem?_map, hl']
      rfl
    · rw [List.getElem?_map, hl]
      rfl
    · rw [List.getElem?_map, hl']
      rfl
  · obtain ⟨l, hgo, hlen, hchar⟩ := pfm_na_top ki hki frames
    obtain ⟨l', hgo', hlen', hchar'⟩ := pfm_na_top ki hki frames'
    have hf := hchar i f h2
    rw [if_neg hpred] at hf
    obtain ⟨p0, hp0, hl⟩ := hf
    rw [h1] at hp0
    obtain rfl := Option.some_inj.mp hp0
    have hf' := hchar' i f h2'
    rw [if_neg hpred] at hf'
    obtain ⟨p0', hp0', hl'⟩ := hf'
    rw [h1'] at hp0'
    obtain rfl := Option.some_inj.mp hp0'
    refine ⟨⟨l.map (·.entry), l.map (·.auxv)⟩, ⟨l'.map (·.entry), l'.map (·.auxv)⟩,
      ?_, ?_, ?_, ?_, ?_, ?_⟩
    · rw [PFrameModelWithMotion.compress_no_adaptation, hgo]
      rfl
    · rw [PFrameModelWithMotion.compress_no_adaptation, hgo']
      rfl
    · rw [List.getElem?_map, hl]
      rfl
    · rw [List.getElem?_map, hl']
      rfl
    · rw [List.getElem?_map, hl]
      rfl
    · rw [List.getElem?_map, hl']
      rfl

/-- Witness for C7: two four-frame videos differing in their first two frames
but agreeing on frames 2 and 3, at predicted index 3 with interval 2. -/
theorem c7_no_adaptation_locality_witness :
    (0 : Nat) < 2 ∧ 3 % 2 ≠ 0 ∧
    ([T.atom 0, T.atom 1, T.atom 2, T.atom 3] : List T)[3 - 1]? = some (T.atom 2) ∧
    ([T.atom 10, T.atom 11, T.atom 2, T.atom 3] : List T)[3 - 1]? = some (T.atom 2) ∧
    ((∃ out out',
      PFrameModel.compress_no_adaptation 2 [T.atom 0, T.atom 1, T.atom 2, T.atom 3]
        = .ok out ∧
      PFrameModel.compress_no_adaptation 2 [T.atom 10, T.atom 11, T.atom 2, T.atom 3]
        = .ok out' ∧
      out.vc[3]? = some (PFrameModel.naPredStep (T.atom 2) (T.atom 3)).entry ∧
      out'.vc[3]? = some (PFrameModel.naPredStep (T.atom 2) (T.atom 3)).entry ∧
      out.aux[3]? = some (PFrameModel.naPredStep (T.atom 2) (T.atom 3)).auxv ∧
      out'.aux[3]? = some (PFrameModel.naPredStep (T.atom 2) (T.atom 3)).auxv) ∧
    (∃ out out',
      PFrameModelWithMotion.compress_no_adaptation 2 [T.atom 0, T.atom 1, T.atom 2, T.atom 3]
        = .ok out ∧
      PFrameModelWithMotion.compress_no_adaptation 2 [T.atom 10, T.atom 11, T.atom 2, T.atom 3]
        = .ok out' ∧
      out.vc[3]? = some (PFrameModelWithMotion.naPredStep (T.atom 2) (T.atom 3)).entry ∧
      out'.vc[3]? = some (PFrameModelWithMotion.naPredStep (T.atom 2) (T.atom 3)).entry ∧
      out.aux[3]? = some (PFrameModelWithMotion.naPredStep (T.atom 2) (T.atom 3)).auxv ∧
      out'.aux[3]? = some (PFrameModelWithMotion.naPredStep (T.atom 2) (T.atom 3)).auxv)) :=
  ⟨by decide, by decide, by decide, by decide,
   c7_no_adaptation_locality 2 [T.atom 0, T.atom 1, T.atom 2, T.atom 3]
     [T.atom 10, T.atom 11, T.atom 2, T.atom 3] 3 (T.atom 2) (T.atom 3)
     (by decide) (by decide) (by decide) (by decide) (by decide) (by decide)⟩

/-- C1: For the Predictive and PredictiveWithMotion policies with
adaptation=true, for every video and every predicted frame index i+1, the
feature tensor the decoder re-extracts from its reconstruction of frame i
(prev_feat = encoder.extract_feats(recon) in decompress) equals, bit for bit,
the feature reference the encoder used when encoding frame i+1 (derived from
the prev_recon it obtained by re-running decompress inside
compress_with_adaptation). -/
theorem c1_adaptive_drift_free (ki : Nat) (frames : List T) (i : Nat)
    (hki : 0 < ki) (hlt : i + 1 < frames.length) (hp : (i + 1) % ki ≠ 0) :
    (∃ out refs recons r,
      PFrameModel.compress_with_adaptation ki frames = .ok out ∧
      PFrameModel.vcRefs ki frames = .ok refs ∧
      PFrameModel.decompress ki out.vc = .ok recons ∧
      recons[i]? = some r ∧
      refs[i + 1]? = some (some (T.extractFeats r))) ∧
    (∃ out refs recons r,
      PFrameModelWithMotion.compress_with_adaptation ki frames = .ok out ∧
      PFrameModelWithMotion.vcRefs ki frames = .ok refs ∧
      PFrameModelWithMotion.decompress ki out.vc = .ok recons ∧
      recons[i]? = some r ∧
      refs[i + 1]? = some (some (T.extractFeats r))) := by
  constructor
  · obtain ⟨steps, hgo, hlen, hchar⟩ := pf_adapt_top ki hki frames
    have hf : frames[i + 1]? = some frames[i + 1] := List.getElem?_eq_getElem hlt
    have hcc := hchar (i + 1) _ hf
    rw [if_neg hp] at hcc
    obtain ⟨p, st, _, hst, hstep⟩ := hcc
    simp only [Nat.add_sub_cancel] at hst
    refine ⟨⟨steps.map (·.entry), steps.map (·.auxv)⟩, steps.map (·.ref),
      steps.map (·.recon), st.recon, ?_, ?_, ?_, ?_, ?_⟩
    · simp only [PFrameModel.compress_with_adaptation, hgo]
      rfl
    · simp only [PFrameModel.vcRefs, hgo]
      rfl
    · simpa [PFrameModel.decompress] using
        PFrameModel.adapt_sim ki frames 0 none none steps hgo
    · rw [List.getElem?_map, hst]
      rfl
    · rw [List.getElem?_map, hstep]
      simp [PFrameModel.adaptPredStep]
  · obtain ⟨steps, hgo, hlen, hchar⟩ := pfm_adapt_top ki hki frames
    have hf : frames[i + 1]? = some frames[i + 1] := List.getElem?_eq_getElem hlt
    have hcc := hchar (i + 1) _ hf
    rw [if_neg hp] at hcc
    obtain ⟨p, st, _, hst, hstep⟩ := hcc
    simp only [Nat.add_sub_cancel] at hst
    refine ⟨⟨steps.map (·.entry), steps.map (·.auxv)⟩, steps.map (·.ref),
      steps.map (·.recon), st.recon, ?_, ?_, ?_, ?_, ?_⟩
    · simp only [PFrameModelWithMotion.compress_with_adaptation, hgo]
      rfl
    · simp only [PFrameModelWithMotion.vcRefs, hgo]
      rfl
    · simpa [PFrameModelWithMotion.decompress] using
        PFrameModelWithMotion.adaptM_sim ki frames 0 none none steps hgo
    · rw [List.getElem?_map, hst]
      rfl
    · rw [List.getElem?_map, hstep]
      simp [PFrameModelWithMotion.adaptPredStep]

/-- Witness for C1 at interval 2, a two-frame video, and predicted index 1. -/
theorem c1_adaptive_drift_free_witness :
    (0 : Nat) < 2 ∧ 0 + 1 < ([T.atom 0, T.atom 1] : List T).length ∧ (0 + 1) % 2 ≠ 0 ∧
    ((∃ out refs recons r,
      PFrameModel.compress_with_adaptation 2 [T.atom 0, T.atom 1] = .ok out ∧
      PFrameModel.vcRefs 2 [T.atom 0, T.atom 1] = .ok refs ∧
      PFrameModel.decompress 2 out.vc = .ok recons ∧
      recons[0]? = some r ∧
      refs[0 + 1]? = some (some (T.extractFeats r))) ∧
    (∃ out refs recons r,
      PFrameModelWithMotion.compress_with_adaptation 2 [T.atom 0, T.atom 1] = .ok out ∧
      PFrameModelWithMotion.vcRefs 2 [T.atom 0, T.atom 1] = .ok refs ∧
      PFrameModelWithMotion.decompress 2 out.vc = .ok recons ∧
      recons[0]? = some r ∧
      refs[0 + 1]? = some (some (T.extractFeats r)))) :=
  ⟨by decide, by decide, by decide,
   c1_adaptive_drift_free 2 [T.atom 0, T.atom 1] 0 (by decide) (by decide) (by decide)⟩

namespace IFrameModel

/-- Shape-and-content view of a video tensor
(batch, frame, channel, height, width), with the temporal axis as a list of
symbolic per-frame contents. -/
structure Video where
  b : Nat
  c : Nat
  h : Nat
  w : Nat
  frames : List T
  deriving DecidableEq, Repr

/-- Bitstream record for one frame: the (prior string, hyperprior string,
shape) triple produced by ICDecoder.compress (vsrvc.py 171-173).  Per the
spec, a record is an opaque serialized payload plus a shape descriptor
sufficient for exact reconstruction, so the record carries the coded slice's
pixel shape together with its symbolic payload. -/
structure BRec where
  b : Nat
  c : Nat
  h : Nat
  w : Nat
  payload : T
  deriving DecidableEq, Repr

/-- Reconstructed pixel frame (batch, channel, height, width). -/
structure Frame4 where
  b : Nat
  c : Nat
  h : Nat
  w : Nat
  content : T
  deriving DecidableEq, Repr

/-- Stacked output tensor (batch, frame, channel, height, width), the result
of torch.stack(reconstructed_video, dim=1). -/
structure Stacked where
  b : Nat
  n : Nat
  c : Nat
  h : Nat
  w : Nat
  contents : List T
  deriving DecidableEq, Repr

/-- IFrameModel.compress (model_loader.py 88-95): one record per frame, each
via compress_one applied to the slice video[:, i:i+1] (the encoder and
ICDecoder.compress composite is opaque). -/
def compress (v : Video) : List BRec :=
  v.frames.map fun f => ⟨v.b, v.c, v.h, v.w, T.iEncRec f⟩

/-- Modelled from the spec: IFrameModel.decompress_one (model_loader.py 85-86)
composes the entropy decode (hyperprior_compressor.py, absent from src) with
the ReconstructionHead (head_decoders.py, absent from src); per the spec's
round-trip contract the reconstruction restores the pixel shape recorded by
compress. -/
def decompress_one (r : BRec) : Frame4 :=
  ⟨r.b, r.c, r.h, r.w, T.iDec r.payload⟩

/-- torch.stack(frames, dim=1): raises on an empty list, requires uniform
per-frame shapes, and inserts the frame count as dimension 1. -/
def stack1 : List Frame4 → Except PyErr Stacked
  | [] => .error .stackEmpty
  | f :: rest =>
    if rest.all fun g => g.b == f.b && g.c == f.c && g.h == f.h && g.w == f.w then
      .ok ⟨f.b, (f :: rest).length, f.c, f.h, f.w, (f :: rest).map (·.content)⟩
    else .error .typeNone

/-- IFrameModel.decompress (model_loader.py 97-101): decode every per-frame
record of the "vc" sequence in order and stack along dimension 1. -/
def decompress (inputs : List BRec) : Except PyErr Stacked :=
  stack1 (inputs.map decompress_one)

/-- Shape (batch, frame, channel, height, width) of an input video. -/
def Video.shape (v : Video) : Nat × Nat × Nat × Nat × Nat :=
  (v.b, v.frames.length, v.c, v.h, v.w)

/-- Shape of a stacked output. -/
def Stacked.shape (s : Stacked) : Nat × Nat × Nat × Nat × Nat :=
  (s.b, s.n, s.c, s.h, s.w)

end IFrameModel

/-- C3: For the Independent (IFrame) policy and every video with at least one
frame, decompress applied to the per-frame bitstream sequence exactly as
compress produced it succeeds and returns a stacked pixel tensor whose frame
count equals that of the input and whose shape equals the input's shape. -/
theorem c3_iframe_roundtrip_shape (v : IFrameModel.Video) (hn : 1 ≤ v.frames.length) :
    ∃ out, IFrameModel.decompress (IFrameModel.compress v) = .ok out ∧
      out.n = v.frames.length ∧ out.shape = v.shape := by
  obtain ⟨f0, rest, hfr⟩ : ∃ f0 rest, v.frames = f0 :: rest := by
    rcases hv : v.frames with _ | ⟨f0, rest⟩
    · rw [hv] at hn; simp at hn
    · exact ⟨f0, rest, rfl⟩
  refine ⟨⟨v.b, v.frames.length, v.c, v.h, v.w,
    v.frames.map fun f => T.iDec (T.iEncRec f)⟩, ?_, rfl, rfl⟩
  rw [IFrameModel.decompress, IFrameModel.compress, hfr]
  simp only [List.map_cons, List.map_map, IFrameModel.stack1, IFrameModel.decompress_one]
  rw [if_pos]
  · simp [Function.comp_def, IFrameModel.decompress_one]
  · simp [List.all_eq_true, Function.comp_def, IFrameModel.decompress_one]

/-- Witness for C3 at a one-frame RGB video. -/
theorem c3_iframe_roundtrip_shape_witness :
    1 ≤ (IFrameModel.Video.mk 1 3 8 8 [T.atom 0]).frames.length ∧
    ∃ out,
      IFrameModel.decompress (IFrameModel.compress (IFrameModel.Video.mk 1 3 8 8 [T.atom 0]))
        = .ok out ∧
      out.n = (IFrameModel.Video.mk 1 3 8 8 [T.atom 0]).frames.length ∧
      out.shape = (IFrameModel.Video.mk 1 3 8 8 [T.atom 0]).shape :=
  ⟨by decide, c3_iframe_roundtrip_shape (IFrameModel.Video.mk 1 3 8 8 [T.atom 0]) (by decide)⟩

namespace Loader

/-- Python str.startswith on the model_type string, as a character-list
prefix test. -/
def startsWith (s pre : String) : Bool :=
  pre.toList.isPrefixOf s.toList

/-- Fields of model.json's arch_args that load_model inspects: a field is
present exactly when its option is `some`, mirroring the
`key in model_data["arch_args"].keys()` presence checks; the carried values
are what the predictive constructors later read. -/
structure ArchArgs where
  iframe_model_path : Option String
  keyframe_interval : Option Nat
  adaptation : Option Bool
  deriving DecidableEq, Repr

/-- The parts of a model description that drive load_model's control flow. -/
structure ModelData where
  model_type : String
  arch_args : ArchArgs
  deriving DecidableEq, Repr

/-- Configuration errors load_model can raise. -/
inductive LoadErr where
  | keyError (key : String)
  | valueError (supported : List String)
  deriving DecidableEq, Repr

/-- Observable actions of a successful load_model call, in order. -/
inductive LoadEvent where
  | constructed
  | loadedCheckpoint (strict : Bool)
  | evalMode
  | update (force : Bool)
  deriving DecidableEq, Repr

/-- Result of a successful load: the ordered action trace plus the
keyframe_interval and adaptation values the assembled predictive model read
from arch_args (none for the IFrame type, which reads neither). -/
structure Loaded where
  events : List LoadEvent
  ki : Option Nat
  adaptation : Option Bool
  deriving DecidableEq, Repr

/-- The supported model types (model_loader.py 265). -/
def supported_model_types : List String := ["IFrame", "PFrame", "PFrameWithMotion"]

/-- Actions following validation (model_loader.py 266-280): construct the
model for the dispatched type, load the checkpoint with strict matching only
for non-predictive types (275-276), switch to eval mode (277), and force one
calibration update (278). -/
def postAssembly (md : ModelData) : Loaded :=
  { events := [LoadEvent.constructed,
      LoadEvent.loadedCheckpoint (!startsWith md.model_type "PFrame"),
      LoadEvent.evalMode, LoadEvent.update true]
    ki := if startsWith md.model_type "PFrame" then md.arch_args.keyframe_interval else none
    adaptation :=
      if startsWith md.model_type "PFrame" then md.arch_args.adaptation else none }

/-- Dispatch on model_type (model_loader.py 265-273): an unrecognized type
raises ValueError listing the supported types. -/
def dispatch (md : ModelData) : Except LoadErr Loaded :=
  if md.model_type = "IFrame" then .ok (postAssembly md)
  else if md.model_type = "PFrame" then .ok (postAssembly md)
  else if md.model_type = "PFrameWithMotion" then .ok (postAssembly md)
  else .error (.valueError supported_model_types)

/-- load_model (model_loader.py 24-280): for a PFrame-prefixed model_type the
three arch_args keys are checked for presence, in order, before anything is
constructed (lines 29-36); then the type dispatch, checkpoint load, eval and
forced calibration run.  File access, registry resolution and the recursive
embedding of the iframe model are abstracted into the trace events. -/
def load_model (md : ModelData) : Except LoadErr Loaded :=
  if startsWith md.model_type "PFrame" then
    if md.arch_args.iframe_model_path.isNone then .error (.keyError "iframe_model_path")
    else if md.arch_args.keyframe_interval.isNone then .error (.keyError "keyframe_interval")
    else if md.arch_args.adaptation.isNone then .error (.keyError "adaptation")
    else dispatch md
  else dispatch md

/-- Is a trace event a calibration update call. -/
def isUpdateEvent : LoadEvent → Bool
  | .update _ => true
  | _ => false

/-- A concrete description with an unsupported PFrame-prefixed type and no
arch_args keys. -/
def mdPFrameX : ModelData := ⟨"PFrameX", ⟨none, none, none⟩⟩

end Loader

theorem isNone_false_of_isSome {α : Type _} {o : Option α} (h : o.isSome = true) :
    o.isNone = false := by
  rcases o with _ | x
  · simp at h
  · rfl

/-- C5, counterexample: the claim says every description whose model_type is
not one of the supported types gets the error identifying the supported
types, but a PFrame-prefixed unsupported type with missing arch_args keys is
rejected by the presence checks first, with a KeyError naming the missing key
instead of the supported types. -/
theorem c5_counterexample :
    Loader.mdPFrameX.model_type ∉ Loader.supported_model_types ∧
    Loader.load_model Loader.mdPFrameX = .error (.keyError "iframe_model_path") ∧
    Loader.load_model Loader.mdPFrameX
      ≠ .error (.valueError Loader.supported_model_types) := by
  have h2 : Loader.load_model Loader.mdPFrameX
      = .error (.keyError "iframe_model_path") := by rfl
  refine ⟨by decide, h2, ?_⟩
  rw [h2]
  simp

/-- C5, amended: for every model description whose model_type starts with
"PFrame", load_model raises a KeyError naming the first missing of
iframe_model_path, keyframe_interval, adaptation before any construction; and
for every description whose model_type is not one of the supported types,
load_model raises the ValueError identifying the supported types provided the
PFrame key checks do not fire first (the type does not start with "PFrame" or
all three keys are present). -/
theorem c5_load_model_errors (md : Loader.ModelData) :
    (Loader.startsWith md.model_type "PFrame" = true →
      (md.arch_args.iframe_model_path.isNone = true →
        Loader.load_model md = .error (.keyError "iframe_model_path")) ∧
      (md.arch_args.iframe_model_path.isSome = true →
        md.arch_args.keyframe_interval.isNone = true →
        Loader.load_model md = .error (.keyError "keyframe_interval")) ∧
      (md.arch_args.iframe_model_path.isSome = true →
        md.arch_args.keyframe_interval.isSome = true →
        md.arch_args.adaptation.isNone = true →
        Loader.load_model md = .error (.keyError "adaptation"))) ∧
    (md.model_type ∉ Loader.supported_model_types →
      (Loader.startsWith md.model_type "PFrame" = false ∨
        (md.arch_args.iframe_model_path.isSome = true ∧
         md.arch_args.keyframe_interval.isSome = true ∧
         md.arch_args.adaptation.isSome = true)) →
      Loader.load_model md = .error (.valueError Loader.supported_model_types)) := by
  constructor
  · intro hpf
    refine ⟨?_, ?_, ?_⟩
    · intro h1
      simp [Loader.load_model, hpf, h1]
    · intro h1 h2
      simp [Loader.load_model, hpf, h2, isNone_false_of_isSome h1]
    · intro h1 h2 h3
      simp [Loader.load_model, hpf, h3, isNone_false_of_isSome h1, isNone_false_of_isSome h2]
  · intro hmem hkeys
    have hni : md.model_type ≠ "IFrame" := by
      intro h
      exact hmem (by rw [h]; decide)
    have hnp : md.model_type ≠ "PFrame" := by
      intro h
      exact hmem (by rw [h]; decide)
    have hnpm : md.model_type ≠ "PFrameWithMotion" := by
      intro h
      exact hmem (by rw [h]; decide)
    rcases hkeys with hkeys | ⟨k1, k2, k3⟩
    · simp [Loader.load_model, hkeys, Loader.dispatch, hni, hnp, hnpm]
    · by_cases hpf : Loader.startsWith md.model_type "PFrame"
      · simp [Loader.load_model, hpf, Loader.dispatch, hni, hnp, hnpm,
          isNone_false_of_isSome k1, isNone_false_of_isSome k2, isNone_false_of_isSome k3]
      · simp only [Bool.not_eq_true] at hpf
        simp [Loader.load_model, hpf, Loader.dispatch, hni, hnp, hnpm]

/-- Witness for C5's amended statement: a PFrame description missing
adaptation is rejected with the adaptation KeyError, and an unsupported
non-PFrame type is rejected with the ValueError naming the supported types. -/
theorem c5_load_model_errors_witness :
    Loader.load_model ⟨"PFrame", ⟨some "p", some 2, none⟩⟩
      = .error (.keyError "adaptation") ∧
    Loader.load_model ⟨"Foo", ⟨none, none, none⟩⟩
      = .error (.valueError Loader.supported_model_types) :=
  ⟨((c5_load_model_errors ⟨"PFrame", ⟨some "p", some 2, none⟩⟩).1 (by decide)).2.2
      (by decide) (by decide) (by decide),
   (c5_load_model_errors ⟨"Foo", ⟨none, none, none⟩⟩).2 (by decide) (Or.inl (by decide))⟩

/-- C6: For every model description that load_model assembles successfully,
load_model performs exactly one update call, it is update(force=True), it
happens after the checkpoint parameters are loaded, and it is the last action
before returning. -/
theorem c6_update_once (md : Loader.ModelData) (L : Loader.Loaded)
    (h : Loader.load_model md = .ok L) :
    L.events.filter Loader.isUpdateEvent = [Loader.LoadEvent.update true] ∧
    L.events.getLast? = some (Loader.LoadEvent.update true) ∧
    ∃ (k j : Nat) (b : Bool), L.events[k]? = some (Loader.LoadEvent.loadedCheckpoint b) ∧
      L.events[j]? = some (Loader.LoadEvent.update true) ∧ k < j := by
  have hL : L = Loader.postAssembly md := by
    unfold Loader.load_model Loader.dispatch at h
    split_ifs at h <;> simp_all
  subst hL
  refine ⟨?_, ?_, 1, 3, !Loader.startsWith md.model_type "PFrame", ?_, ?_, ?_⟩
  · simp [Loader.postAssembly, Loader.isUpdateEvent, List.filter]
  · simp [Loader.postAssembly]
  · simp [Loader.postAssembly]
  · simp [Loader.postAssembly]
  · omega

/-- Witness for C6 on a concrete IFrame description. -/
theorem c6_update_once_witness :
    (Loader.postAssembly ⟨"IFrame", ⟨none, none, none⟩⟩).events.filter Loader.isUpdateEvent
      = [Loader.LoadEvent.update true] ∧
    (Loader.postAssembly ⟨"IFrame", ⟨none, none, none⟩⟩).events.getLast?
      = some (Loader.LoadEvent.update true) ∧
    ∃ (k j : Nat) (b : Bool),
      (Loader.postAssembly ⟨"IFrame", ⟨none, none, none⟩⟩).events[k]?
        = some (Loader.LoadEvent.loadedCheckpoint b) ∧
      (Loader.postAssembly ⟨"IFrame", ⟨none, none, none⟩⟩).events[j]?
        = some (Loader.LoadEvent.update true) ∧ k < j :=
  c6_update_once ⟨"IFrame", ⟨none, none, none⟩⟩
    (Loader.postAssembly ⟨"IFrame", ⟨none, none, none⟩⟩) (by rfl)

/-- C9: load_model checks only the presence, never the value, of
keyframe_interval: a PFrame or PFrameWithMotion description with
keyframe_interval = 0 is assembled without any error, and every subsequent
compress or decompress call that processes at least one frame then fails at
frame index 0 with the modulo-by-zero error raised when evaluating
i % keyframe_interval. -/
theorem c9_keyframe_interval_zero (md : Loader.ModelData)
    (ht : md.model_type = "PFrame" ∨ md.model_type = "PFrameWithMotion")
    (h1 : md.arch_args.iframe_model_path.isSome = true)
    (h2 : md.arch_args.keyframe_interval = some 0)
    (h3 : md.arch_args.adaptation.isSome = true) :
    (∃ L, Loader.load_model md = .ok L ∧ L.ki = some 0) ∧
    (∀ (adaptation : Bool) (f : T) (fs : List T),
      PFrameModel.compress adaptation 0 (f :: fs) = .error .zeroDiv) ∧
    (∀ (e : List T) (es : List (List T)),
      PFrameModel.decompress 0 (e :: es) = .error .zeroDiv) ∧
    (∀ (adaptation : Bool) (f : T) (fs : List T),
      PFrameModelWithMotion.compress adaptation 0 (f :: fs) = .error .zeroDiv) ∧
    (∀ (e : List T) (es : List (List T)),
      PFrameModelWithMotion.decompress 0 (e :: es) = .error .zeroDiv) := by
  refine ⟨?_, ?_, ?_, ?_, ?_⟩
  · have hpf : Loader.startsWith md.model_type "PFrame" = true := by
      rcases ht with h | h <;> rw [h] <;> rfl
    refine ⟨Loader.postAssembly md, ?_, ?_⟩
    · have hd : Loader.dispatch md = .ok (Loader.postAssembly md) := by
        rcases ht with h | h <;> simp [Loader.dispatch, h]
      simp [Loader.load_model, hpf, hd, isNone_false_of_isSome h1,
        isNone_false_of_isSome h3, h2]
    · simp [Loader.postAssembly, hpf, h2]
  · intro adaptation f fs
    cases adaptation <;>
      simp [PFrameModel.compress, PFrameModel.compress_with_adaptation,
        PFrameModel.compress_no_adaptation, PFrameModel.adaptGo, PFrameModel.naGo,
        Except.map]
  · intro e es
    simp [PFrameModel.decompress, PFrameModel.decGo]
  · intro adaptation f fs
    cases adaptation <;>
      simp [PFrameModelWithMotion.compress, PFrameModelWithMotion.compress_with_adaptation,
        PFrameModelWithMotion.compress_no_adaptation, PFrameModelWithMotion.adaptGo,
        PFrameModelWithMotion.naGo, Except.map]
  · intro e es
    simp [PFrameModelWithMotion.decompress, PFrameModelWithMotion.decGo]

/-- Witness for C9 on a concrete PFrame description with interval 0. -/
theorem c9_keyframe_interval_zero_witness :
    (∃ L, Loader.load_model ⟨"PFrame", ⟨some "p", some 0, some false⟩⟩ = .ok L ∧
      L.ki = some 0) ∧
    (∀ (adaptation : Bool) (f : T) (fs : List T),
      PFrameModel.compress adaptation 0 (f :: fs) = .error .zeroDiv) ∧
    (∀ (e : List T) (es : List (List T)),
      PFrameModel.decompress 0 (e :: es) = .error .zeroDiv) ∧
    (∀ (adaptation : Bool) (f : T) (fs : List T),
      PFrameModelWithMotion.compress adaptation 0 (f :: fs) = .error .zeroDiv) ∧
    (∀ (e : List T) (es : List (List T)),
      PFrameModelWithMotion.decompress 0 (e :: es) = .error .zeroDiv) :=
  c9_keyframe_interval_zero ⟨"PFrame", ⟨some "p", some 0, some false⟩⟩
    (Or.inl (by decide)) (by decide) (by decide) (by decide)

/-- A five-dimensional input tensor (B, N, C, H, W), with the temporal axis
held as a list of symbolic per-frame contents. -/
structure Tensor5 where
  b : Nat
  c : Nat
  h : Nat
  w : Nat
  frames : List T
  deriving Repr

/-- The temporal dimension N of a five-dimensional tensor. -/
def Tensor5.n (x : Tensor5) : Nat := x.frames.length

/-- Does an inference call succeed. -/
def isOkE {α : Type _} : Except PyErr α → Bool
  | .ok _ => true
  | .error _ => false

namespace VSRVCMotionResidualEncoder

/-- The pair of tuples VSRVCMotionResidualEncoder.forward returns:
[(aligned_features, curr_feat, p_bits, hp_bits), (aligned_features, x[:, -1])]. -/
structure Out where
  aligned : T
  curr_feat : T
  p_bits : T
  hp_bits : T
  last : T
  deriving DecidableEq, Repr

/-- VSRVCMotionResidualEncoder.forward (vsrvc.py 24-32): destructures the five
dimensions, asserts N = 2, extracts features of both frames, estimates motion,
round-trips it through the motion compressor
(train_compression_decompression of hyperprior_compressor.py is opaque),
compensates, and returns the two tuples. -/
def forward (x : Tensor5) : Except PyErr Out :=
  match x.frames with
  | [p, c] =>
    let prev_feat := T.extractFeats p
    let curr_feat := T.extractFeats c
    let offsets := T.motionEst prev_feat curr_feat
    let decompressed_offsets := T.trainRT offsets
    let aligned := T.motionComp prev_feat decompressed_offsets
    .ok ⟨aligned, curr_feat, T.bitsP offsets, T.bitsHP offsets, c⟩
  | _ => .error .assert

end VSRVCMotionResidualEncoder

namespace VSRVCResidualEncoder

/-- The pair of tuples VSRVCResidualEncoder.forward returns:
[(prev_feat, curr_feat), (prev_feat, curr_feat, x[:, -1])]. -/
structure Out where
  prev_feat : T
  curr_feat : T
  last : T
  deriving DecidableEq, Repr

/-- VSRVCResidualEncoder.forward (vsrvc.py 66-71): destructures the five
dimensions, asserts N = 2, and returns the features of both frames together
with the last input frame. -/
def forward (x : Tensor5) : Except PyErr Out :=
  match x.frames with
  | [p, c] => .ok ⟨T.extractFeats p, T.extractFeats c, c⟩
  | _ => .error .assert

end VSRVCResidualEncoder

/-- C8: For every 5-dimensional input tensor of shape (B, N, C, H, W), the
forward passes of VSRVCMotionResidualEncoder and VSRVCResidualEncoder raise an
assertion error exactly when N is not 2, and proceed past the check whenever
N = 2. -/
theorem c8_two_frame_assert (x : Tensor5) :
    (VSRVCMotionResidualEncoder.forward x = .error .assert ↔ x.n ≠ 2) ∧
    (isOkE (VSRVCMotionResidualEncoder.forward x) = true ↔ x.n = 2) ∧
    (VSRVCResidualEncoder.forward x = .error .assert ↔ x.n ≠ 2) ∧
    (isOkE (VSRVCResidualEncoder.forward x) = true ↔ x.n = 2) := by
  rcases x with ⟨b, c, h, w, frames⟩
  rcases frames with _ | ⟨f1, _ | ⟨f2, _ | ⟨f3, rest⟩⟩⟩ <;>
    simp [VSRVCMotionResidualEncoder.forward, VSRVCResidualEncoder.forward,
      Tensor5.n, isOkE]

namespace Metrics

/-- A torch tensor as the metric functions see it: its shape list and, for
each leading-dimension index, the symbolic slice content. -/
structure PTensor where
  shape : List Nat
  frame : Nat → T

/-- Leading (batch) dimension. -/
def PTensor.batch (t : PTensor) : Nat := t.shape.headD 0

/-- Encode a Python list of values as one symbolic term. -/
def encList : List T → T
  | [] => T.nilT
  | a :: r => T.consT a (encList r)

/-- torch.stack over a Python list of metric values: RuntimeError on an empty
list. -/
def tstack : List T → Except PyErr T
  | [] => .error .stackEmpty
  | l => .ok (T.stackT (encList l))

/-- The recognized aggregation strategies (metrics.py 94, 106). -/
def aggStrategies : List String := ["mean", "sum", "none"]

/-- The per-batch-element metric values: `for i in range(target.size()[0])`
applied to the opaque torchmetrics call. -/
def perBatch (valOf : T → T → T) (input target : PTensor) : List T :=
  (List.range target.batch).map fun i => valOf (input.frame i) (target.frame i)

/-- The shared tail of the four private metric helpers (metrics.py 130-137,
153-160, 177-184, 200-207): stack the collected values and aggregate; the
final unreachable raise corresponds to an unrecognized strategy. -/
def innerAgg (vals : List T) (aggregate : String) : Except PyErr T :=
  if aggregate = "mean" then (tstack vals).map T.meanT
  else if aggregate = "sum" then (tstack vals).map T.sumT
  else if aggregate = "none" then tstack vals
  else .error .notImplAgg

/-- The shared body of the four private metric helpers: re-check the rank,
loop over the target batch (indexing input[i] is an IndexError once the
target batch outruns the input batch), then stack and aggregate. -/
def imagesBody (rankReq : Nat) (valOf : T → T → T) (input target : PTensor)
    (aggregate : String) : Except PyErr T :=
  if input.shape.length ≠ rankReq then .error .notImplRank
  else if input.batch < target.batch then .error .index
  else innerAgg (perBatch valOf input target) aggregate

/-- metrics.py _psnr_images (117-137). -/
def psnrImages : PTensor → PTensor → String → Except PyErr T :=
  imagesBody 4 T.psnrOf

/-- metrics.py _psnr_videos (140-160). -/
def psnrVideos : PTensor → PTensor → String → Except PyErr T :=
  imagesBody 5 T.psnrOf

/-- metrics.py _ssim_images (163-184), whose torchmetrics call unsqueezes
both slices. -/
def ssimImages : PTensor → PTensor → String → Except PyErr T :=
  imagesBody 4 fun a b => T.ssimOf (T.unsq a) (T.unsq b)

/-- metrics.py _ssim_videos (187-207). -/
def ssimVideos : PTensor → PTensor → String → Except PyErr T :=
  imagesBody 5 T.ssimOf

/-- The shared dispatch of the public psnr and ssim (metrics.py 93-102,
105-114): validate the aggregation strategy first, then dispatch on the input
rank, else raise. -/
def topBody (inner4 inner5 : PTensor → PTensor → String → Except PyErr T)
    (input target : PTensor) (aggregate : String) : Except PyErr T :=
  if aggregate ∉ aggStrategies then .error .notImplAgg
  else if input.shape.length = 4 then inner4 input target aggregate
  else if input.shape.length = 5 then inner5 input target aggregate
  else .error .notImplRank

/-- metrics.py psnr (93-102). -/
def psnr : PTensor → PTensor → String → Except PyErr T :=
  topBody psnrImages psnrVideos

/-- metrics.py ssim (105-114). -/
def ssim : PTensor → PTensor → String → Except PyErr T :=
  topBody ssimImages ssimVideos

/-- The call raised a NotImplementedError (of either message). -/
def notImplErr (r : Except PyErr T) : Prop :=
  r = .error .notImplAgg ∨ r = .error .notImplRank

theorem innerAgg_result (vals : List T) (aggregate : String)
    (h : aggregate ∈ aggStrategies) :
    (vals = [] ∧ innerAgg vals aggregate = .error .stackEmpty) ∨
    ∃ v, innerAgg vals aggregate = .ok v := by
  have hc : aggregate = "mean" ∨ aggregate = "sum" ∨ aggregate = "none" := by
    simpa [aggStrategies] using h
  rcases vals with _ | ⟨a, l⟩
  · rcases hc with rfl | rfl | rfl <;> exact Or.inl ⟨rfl, rfl⟩
  · right
    rcases hc with rfl | rfl | rfl <;> exact ⟨_, rfl⟩

theorem imagesBody_spec (rankReq : Nat) (valOf : T → T → T) (input target : PTensor)
    (aggregate : String) (hagg : aggregate ∈ aggStrategies)
    (hrank : input.shape.length = rankReq) (hb : input.batch = target.batch) :
    (target.batch = 0 ∧ imagesBody rankReq valOf input target aggregate
        = .error .stackEmpty) ∨
    ∃ v, imagesBody rankReq valOf input target aggregate = .ok v := by
  have hnlt : ¬ input.batch < target.batch := by omega
  rcases innerAgg_result (perBatch valOf input target) aggregate hagg with ⟨he, hr⟩ | ⟨v, hr⟩
  · left
    constructor
    · simpa [perBatch, List.range_eq_nil] using congrArg List.length he
    · simp [imagesBody, hrank, hnlt, hr]
  · right
    exact ⟨v, by simp [imagesBody, hrank, hnlt, hr]⟩

theorem topBody_spec (v4 v5 : T → T → T) (input target : PTensor) (aggregate : String)
    (hsh : input.shape = target.shape) :
    (notImplErr (topBody (imagesBody 4 v4) (imagesBody 5 v5) input target aggregate) ↔
      (aggregate ∉ aggStrategies ∨
        (input.shape.length ≠ 4 ∧ input.shape.length ≠ 5))) ∧
    (aggregate ∉ aggStrategies →
      topBody (imagesBody 4 v4) (imagesBody 5 v5) input target aggregate
        = .error .notImplAgg) ∧
    (aggregate ∈ aggStrategies → (input.shape.length = 4 ∨ input.shape.length = 5) →
      0 < input.batch →
      ∃ v, topBody (imagesBody 4 v4) (imagesBody 5 v5) input target aggregate = .ok v) := by
  have hb : input.batch = target.batch := by
    simp [PTensor.batch, hsh]
  by_cases hagg : aggregate ∈ aggStrategies
  · by_cases h4 : input.shape.length = 4
    · have htop : topBody (imagesBody 4 v4) (imagesBody 5 v5) input target aggregate
          = imagesBody 4 v4 input target aggregate := by
        simp [topBody, hagg, h4]
      rcases imagesBody_spec 4 v4 input target aggregate hagg h4 hb with ⟨hb0, hr⟩ | ⟨v, hr⟩
      · refine ⟨?_, fun hc => absurd hagg hc, ?_⟩
        · rw [htop, hr]
          simp [notImplErr, hagg, h4]
        · intro _ _ hbpos
          exact absurd hbpos (by omega)
      · refine ⟨?_, fun hc => absurd hagg hc, ?_⟩
        · rw [htop, hr]
          simp [notImplErr, hagg, h4]
        · intro _ _ _
          exact ⟨v, htop ▸ hr⟩
    · by_cases h5 : input.shape.length = 5
      · have htop : topBody (imagesBody 4 v4) (imagesBody 5 v5) input target aggregate
            = imagesBody 5 v5 input target aggregate := by
          simp [topBody, hagg, h4, h5]
        rcases imagesBody_spec 5 v5 input target aggregate hagg h5 hb with ⟨hb0, hr⟩ | ⟨v, hr⟩
        · refine ⟨?_, fun hc => absurd hagg hc, ?_⟩
          · rw [htop, hr]
            simp [notImplErr, hagg, h5]
          · intro _ _ hbpos
            exact absurd hbpos (by omega)
        · refine ⟨?_, fun hc => absurd hagg hc, ?_⟩
          · rw [htop, hr]
            simp [notImplErr, hagg, h5]
          · intro _ _ _
            exact ⟨v, htop ▸ hr⟩
      · have htop : topBody (imagesBody 4 v4) (imagesBody 5 v5) input target aggregate
            = .error .notImplRank := by
          simp [topBody, hagg, h4, h5]
        refine ⟨?_, fun hc => absurd hagg hc, ?_⟩
        · rw [htop]
          simp [notImplErr, hagg, h4, h5]
        · intro _ hor _
          rcases hor with h | h
          · exact absurd h h4
          · exact absurd h h5
  · have htop : topBody (imagesBody 4 v4) (imagesBody 5 v5) input target aggregate
        = .error .notImplAgg := by
      simp [topBody, hagg]
    refine ⟨?_, fun _ => htop, fun hc => absurd hc hagg⟩
    rw [htop]
    simp [notImplErr, hagg]

/-- A concrete pair of rank-4 tensors with batch dimension 0. -/
def tEmptyBatch : PTensor := ⟨[0, 3, 8, 8], fun _ => T.atom 0⟩

/-- A concrete pair of rank-4 tensors with batch dimension 1. -/
def tOneBatch : PTensor := ⟨[1, 3, 8, 8], fun _ => T.atom 0⟩

end Metrics

/-- C10, counterexample: with a valid aggregate and a rank-4 input whose
batch dimension is 0, psnr and ssim do not return a tensor: torch.stack on
the empty collected value list raises a RuntimeError (which is also not a
NotImplementedError). -/
theorem c10_counterexample :
    ("mean" ∈ Metrics.aggStrategies) ∧
    Metrics.tEmptyBatch.shape.length = 4 ∧
    Metrics.psnr Metrics.tEmptyBatch Metrics.tEmptyBatch "mean" = .error .stackEmpty ∧
    Metrics.ssim Metrics.tEmptyBatch Metrics.tEmptyBatch "mean" = .error .stackEmpty ∧
    ¬ Metrics.notImplErr (Metrics.psnr Metrics.tEmptyBatch Metrics.tEmptyBatch "mean") := by
  refine ⟨by decide, by decide, rfl, rfl, ?_⟩
  rw [show Metrics.psnr Metrics.tEmptyBatch Metrics.tEmptyBatch "mean"
      = .error .stackEmpty from rfl]
  simp [Metrics.notImplErr]

/-- C10, amended: for every pair of equal-shaped input and target tensors,
psnr and ssim raise NotImplementedError exactly when the aggregate is not one
of mean, sum, none or the input rank is neither 4 nor 5; the aggregate string
is validated before the rank is inspected (an invalid aggregate yields the
aggregate-message error whatever the rank); and for a valid aggregate with a
rank-4 or rank-5 input whose batch dimension is nonzero, a tensor is
returned (a zero batch instead raises torch.stack's RuntimeError). -/
theorem c10_metrics_behavior (input target : Metrics.PTensor) (aggregate : String)
    (hsh : input.shape = target.shape) :
    ((Metrics.notImplErr (Metrics.psnr input target aggregate) ↔
      (aggregate ∉ Metrics.aggStrategies ∨
        (input.shape.length ≠ 4 ∧ input.shape.length ≠ 5))) ∧
     (aggregate ∉ Metrics.aggStrategies →
       Metrics.psnr input target aggregate = .error .notImplAgg) ∧
     (aggregate ∈ Metrics.aggStrategies →
       (input.shape.length = 4 ∨ input.shape.length = 5) → 0 < input.batch →
       ∃ v, Metrics.psnr input target aggregate = .ok v)) ∧
    ((Metrics.notImplErr (Metrics.ssim input target aggregate) ↔
      (aggregate ∉ Metrics.aggStrategies ∨
        (input.shape.length ≠ 4 ∧ input.shape.length ≠ 5))) ∧
     (aggregate ∉ Metrics.aggStrategies →
       Metrics.ssim input target aggregate = .error .notImplAgg) ∧
     (aggregate ∈ Metrics.aggStrategies →
       (input.shape.length = 4 ∨ input.shape.length = 5) → 0 < input.batch →
       ∃ v, Metrics.ssim input target aggregate = .ok v)) :=
  ⟨Metrics.topBody_spec T.psnrOf T.psnrOf input target aggregate hsh,
   Metrics.topBody_spec (fun a b => T.ssimOf (T.unsq a) (T.unsq b)) T.ssimOf
     input target aggregate hsh⟩

/-- Witness for C10's amended statement at a concrete rank-4 pair with batch
1 and the mean aggregate. -/
theorem c10_metrics_behavior_witness :
    ((Metrics.notImplErr (Metrics.psnr Metrics.tOneBatch Metrics.tOneBatch "mean") ↔
      ("mean" ∉ Metrics.aggStrategies ∨
        (Metrics.tOneBatch.shape.length ≠ 4 ∧ Metrics.tOneBatch.shape.length ≠ 5))) ∧
     ("mean" ∉ Metrics.aggStrategies →
       Metrics.psnr Metrics.tOneBatch Metrics.tOneBatch "mean" = .error .notImplAgg) ∧
     ("mean" ∈ Metrics.aggStrategies →
       (Metrics.tOneBatch.shape.length = 4 ∨ Metrics.tOneBatch.shape.length = 5) →
       0 < Metrics.tOneBatch.batch →
       ∃ v, Metrics.psnr Metrics.tOneBatch Metrics.tOneBatch "mean" = .ok v)) ∧
    ((Metrics.notImplErr (Metrics.ssim Metrics.tOneBatch Metrics.tOneBatch "mean") ↔
      ("mean" ∉ Metrics.aggStrategies ∨
        (Metrics.tOneBatch.shape.length ≠ 4 ∧ Metrics.tOneBatch.shape.length ≠ 5))) ∧
     ("mean" ∉ Metrics.aggStrategies →
       Metrics.ssim Metrics.tOneBatch Metrics.tOneBatch "mean" = .error .notImplAgg) ∧
     ("mean" ∈ Metrics.aggStrategies →
       (Metrics.tOneBatch.shape.length = 4 ∨ Metrics.tOneBatch.shape.length = 5) →
       0 < Metrics.tOneBatch.batch →
       ∃ v, Metrics.ssim Metrics.tOneBatch Metrics.tOneBatch "mean" = .ok v)) :=
  c10_metrics_behavior Metrics.tOneBatch Metrics.tOneBatch "mean" rfl

end VSRVC
